import Mathlib

/-!
Shallow embedding of the negalog batch missing-log detector, checked against
its natural-language specification.

Modelling conventions, shared by all definitions below:

* Go `time.Time` values are absolute instants modelled as `Int` (nanoseconds);
  `time.Duration` is likewise `Int`.  `a.Sub b` is `a - b`, `Before` is `<`,
  `After` is `>`.
* A compiled Go regexp is abstracted as a `Matcher : String → Option (List String)`,
  the result of `regexp.FindStringSubmatch`: `none` for no match, otherwise the
  list `matches` whose head is the whole match and whose tail are the capture
  groups (so `len(matches)-1` is the group count and `matches[k]` is group `k`).
  Engines only ever consume regexes through this interface.
* Wall-clock statistics (`StartTime`/`EndTime` of `RuleStats`, recorded via
  `time.Now()`) are timing data explicitly excluded by the spec's claims and
  are omitted from the embedded state; the deterministic counters
  `LinesProcessed`/`LinesMatched` are kept.
* `Issue.Description` strings are `fmt.Sprintf` renderings of the same fields
  that appear in `IssueContext`; they are omitted, the context fields are kept.
-/

namespace Negalog

/-- ParsedLine is the unit of streaming data produced by a source
(`pkg/parser`): raw line text, timestamp, originating file, 1-based line
number. -/
structure ParsedLine where
  raw : String
  ts : Int
  source : String
  lineNum : Nat
deriving DecidableEq, Repr, Inhabited

/-- Matcher abstracts `(*regexp.Regexp).FindStringSubmatch`: `none` when the
regex does not match, otherwise the submatch list (whole match first, then
the capture groups). -/
def Matcher : Type := String → Option (List String)

/-- IssueType is the tag of a detected issue (`pkg/analyzer/types.go`). -/
inductive IssueType where
  | missingEnd
  | gapExceeded
  | missingConsequence
  | belowMinOccurrences
deriving DecidableEq, Repr

/-- IssueContext carries the structured payload of an issue.  Fields mirror
the Go struct; Go zero values (`""`, `0`) stand for absent fields. -/
structure IssueContext where
  correlationID : String := ""
  startTime : Int := 0
  endTime : Int := 0
  source : String := ""
  lineNum : Nat := 0
  timeout : Int := 0
  actualGap : Int := 0
  expectedGap : Int := 0
  occurrences : Nat := 0
  minRequired : Nat := 0
deriving DecidableEq, Repr

/-- Issue is one detected problem: a type tag plus its context payload. -/
structure Issue where
  type : IssueType
  context : IssueContext
deriving DecidableEq, Repr

/-- RuleStats keeps the deterministic per-engine counters
(wall-clock start/end times are omitted, see the header comment). -/
structure RuleStats where
  linesProcessed : Nat := 0
  linesMatched : Nat := 0
deriving DecidableEq, Repr

/-! ## Conditional engine (`pkg/analyzer/conditional.go`) -/

/-- triggerEvent tracks a trigger awaiting its expected consequence
(`conditional.go`). -/
structure triggerEvent where
  correlationID : String := ""
  timestamp : Int
  source : String
  lineNum : Nat
deriving DecidableEq, Repr, Inhabited

/-- ConditionalEngine state: configuration plus the ordered list of pending
triggers and the counters (`conditional.go`). -/
structure ConditionalEngine where
  timeout : Int
  corrField : Nat
  triggerPattern : Matcher
  expectedPattern : Matcher
  triggers : List triggerEvent := []
  stats : RuleStats := {}

/-- Auxiliary loop of `removeSatisfiedTriggers`: iterates over the trigger
list with the accumulated `newTriggers`; a trigger is satisfied per the Go
conditions, unsatisfied triggers are kept, and in the no-correlation case
the first satisfied trigger causes `newTriggers = append(newTriggers,
e.triggers[len(newTriggers)+1:])` followed by `break` (translated literally:
the remainder dropped is computed from `acc.length + 1` over the original
list). -/
def condSatisfied (corrField : Nat) (timeout : Int) (corrID : String)
    (eventTime : Int) (t : triggerEvent) : Bool :=
  if 0 < corrField then
    t.correlationID == corrID && decide (eventTime - t.timestamp ≤ timeout)
  else
    decide (eventTime - t.timestamp ≤ timeout)

def removeSatisfiedAux (corrField : Nat) (timeout : Int) (corrID : String)
    (eventTime : Int) (orig : List triggerEvent) :
    List triggerEvent → List triggerEvent → List triggerEvent
  | acc, [] => acc
  | acc, t :: rest =>
    if condSatisfied corrField timeout corrID eventTime t then
      if corrField = 0 then acc ++ orig.drop (acc.length + 1)
      else removeSatisfiedAux corrField timeout corrID eventTime orig acc rest
    else removeSatisfiedAux corrField timeout corrID eventTime orig (acc ++ [t]) rest

/-- removeSatisfiedTriggers removes the pending triggers satisfied by an
expected event with correlation id `corrID` at time `eventTime`
(`conditional.go`, lines 112–144). -/
def ConditionalEngine.removeSatisfiedTriggers (e : ConditionalEngine)
    (corrID : String) (eventTime : Int) : ConditionalEngine :=
  { e with triggers :=
      removeSatisfiedAux e.corrField e.timeout corrID eventTime e.triggers [] e.triggers }

/-- extractCorrID mirrors the pattern used in `conditional.go` to read the
configured correlation capture group from a submatch list, defaulting to the
empty string: `if e.corrField > 0 && e.corrField <= len(matches)-1`. -/
def extractCorrID (corrField : Nat) (ms : List String) : String :=
  if 0 < corrField ∧ corrField ≤ ms.length - 1 then ms.getD corrField ""
  else ""

/-- Process for the conditional engine (`conditional.go`, lines 74–109):
append a pending trigger on a trigger-pattern match, then resolve satisfied
triggers on an expected-pattern match. -/
def ConditionalEngine.process (e : ConditionalEngine) (line : ParsedLine) :
    ConditionalEngine :=
  let e := { e with stats := { e.stats with linesProcessed := e.stats.linesProcessed + 1 } }
  let e :=
    match e.triggerPattern line.raw with
    | some ms =>
      { e with
        triggers := e.triggers ++
          [({ correlationID := extractCorrID e.corrField ms
              timestamp := line.ts
              source := line.source
              lineNum := line.lineNum } : triggerEvent)]
        stats := { e.stats with linesMatched := e.stats.linesMatched + 1 } }
    | none => e
  match e.expectedPattern line.raw with
  | some ms =>
    e.removeSatisfiedTriggers (extractCorrID e.corrField ms) line.ts
  | none => e

/-- Finalize for the conditional engine (`conditional.go`, lines 147–184):
every remaining pending trigger becomes a MissingConsequence issue. -/
def ConditionalEngine.finalizeIssues (e : ConditionalEngine) : List Issue :=
  e.triggers.map fun trigger =>
    { type := .missingConsequence
      context :=
        { correlationID := trigger.correlationID
          startTime := trigger.timestamp
          source := trigger.source
          lineNum := trigger.lineNum
          timeout := e.timeout } }

/-- removeFirstSatisfied is the specification-shaped form of the
no-correlation removal: drop exactly the first pending trigger whose age at
`eventTime` is within `timeout`, keep everything else.  Proved below to be
what `removeSatisfiedTriggers` computes when no correlation group is
configured. -/
def removeFirstSatisfied (timeout eventTime : Int) :
    List triggerEvent → List triggerEvent
  | [] => []
  | t :: rest =>
    if eventTime - t.timestamp ≤ timeout then rest
    else t :: removeFirstSatisfied timeout eventTime rest

/-! ## Sequence engine (`pkg/analyzer/conditional.go`, second half) -/

/-- sequenceTracker tracks an open sequence awaiting completion. -/
structure sequenceTracker where
  correlationID : String
  startTime : Int
  source : String
  lineNum : Nat
deriving DecidableEq, Repr, Inhabited

/-- alistLookup models reading a Go `map[string]*sequenceTracker`. -/
def alistLookup (k : String) : List (String × sequenceTracker) → Option sequenceTracker
  | [] => none
  | (k', v) :: rest => if k' = k then some v else alistLookup k rest

/-- alistInsert models `m[k] = v` on a Go map: overwrite the binding if the
key is present, otherwise add it. -/
def alistInsert (k : String) (v : sequenceTracker) :
    List (String × sequenceTracker) → List (String × sequenceTracker)
  | [] => [(k, v)]
  | (k', v') :: rest =>
    if k' = k then (k, v) :: rest else (k', v') :: alistInsert k v rest

/-- alistErase models `delete(m, k)` on a Go map. -/
def alistErase (k : String) :
    List (String × sequenceTracker) → List (String × sequenceTracker)
  | [] => []
  | (k', v') :: rest =>
    if k' = k then rest else (k', v') :: alistErase k rest

/-- SequenceEngine state: configuration plus the open-sequence map (modelled
as an association list with unique keys; Go map iteration order is supplied
separately at finalize) and the counters. -/
structure SequenceEngine where
  timeout : Int
  corrField : Nat
  startPattern : Matcher
  endPattern : Matcher
  openSequences : List (String × sequenceTracker) := []
  stats : RuleStats := {}

/-- Process for the sequence engine (`conditional.go`, lines 307–344): a
start match inserts/overwrites the open entry for the captured id; an end
match deletes the entry exactly when the elapsed time is within the
timeout. -/
def SequenceEngine.process (e : SequenceEngine) (line : ParsedLine) :
    SequenceEngine :=
  let e := { e with stats := { e.stats with linesProcessed := e.stats.linesProcessed + 1 } }
  let e :=
    match e.startPattern line.raw with
    | some ms =>
      if e.corrField ≤ ms.length - 1 then
        let corrID := ms.getD e.corrField ""
        { e with
          openSequences := alistInsert corrID
            { correlationID := corrID
              startTime := line.ts
              source := line.source
              lineNum := line.lineNum } e.openSequences
          stats := { e.stats with linesMatched := e.stats.linesMatched + 1 } }
      else e
    | none => e
  match e.endPattern line.raw with
  | some ms =>
    if e.corrField ≤ ms.length - 1 then
      let corrID := ms.getD e.corrField ""
      match alistLookup corrID e.openSequences with
      | some tracker =>
        if line.ts - tracker.startTime ≤ e.timeout then
          { e with openSequences := alistErase corrID e.openSequences }
        else e
      | none => e
    else e
  | none => e

/-- seqFinalizeIssues is Finalize of the sequence engine (`conditional.go`,
lines 347–379) applied to one enumeration of the open-sequence map: every
remaining open entry becomes a MissingEnd issue.  The enumeration argument
stands for Go's (unspecified) map iteration order; theorems quantify over
the permutations of the map entries. -/
def seqFinalizeIssues (timeout : Int)
    (entries : List (String × sequenceTracker)) : List Issue :=
  entries.map fun e =>
    { type := .missingEnd
      context :=
        { correlationID := e.2.correlationID
          startTime := e.2.startTime
          source := e.2.source
          lineNum := e.2.lineNum
          timeout := timeout } }

/-! ## Periodic engine (`pkg/analyzer/periodic.go`) -/

/-- periodicMatch tracks a single match for periodic analysis. -/
structure periodicMatch where
  timestamp : Int
  source : String
  lineNum : Nat
deriving DecidableEq, Repr, Inhabited

/-- PeriodicEngine state: configuration plus the ordered list of matches and
the counters.  The pattern is abstracted as `MatchString`. -/
structure PeriodicEngine where
  maxGap : Int
  minOccurrences : Nat
  pattern : String → Bool
  matchList : List periodicMatch := []
  stats : RuleStats := {}

/-- Process for the periodic engine (`periodic.go`, lines 69–85): append on
match, ignore otherwise. -/
def PeriodicEngine.process (e : PeriodicEngine) (line : ParsedLine) :
    PeriodicEngine :=
  let e := { e with stats := { e.stats with linesProcessed := e.stats.linesProcessed + 1 } }
  if e.pattern line.raw then
    { e with
      matchList := e.matchList ++
        [{ timestamp := line.ts, source := line.source, lineNum := line.lineNum }]
      stats := { e.stats with linesMatched := e.stats.linesMatched + 1 } }
  else e

/-- gapIssue is the GapExceeded issue emitted for a consecutive pair of
matches (`periodic.go`, lines 108–123): start/end times, the actual and
expected gap, and the source/line of the preceding event. -/
def gapIssue (maxGap : Int) (prev curr : periodicMatch) : Issue :=
  { type := .gapExceeded
    context :=
      { startTime := prev.timestamp
        endTime := curr.timestamp
        source := prev.source
        lineNum := prev.lineNum
        actualGap := curr.timestamp - prev.timestamp
        expectedGap := maxGap } }

/-- gapIssues is the consecutive-pair loop of the periodic Finalize
(`periodic.go`, lines 103–124). -/
def gapIssues (maxGap : Int) : List periodicMatch → List Issue
  | [] => []
  | [_] => []
  | prev :: curr :: rest =>
    (if curr.timestamp - prev.timestamp > maxGap
      then [gapIssue maxGap prev curr] else []) ++
    gapIssues maxGap (curr :: rest)

/-- belowMinIssue is the BelowMinOccurrences issue (`periodic.go`, lines
127–138). -/
def belowMinIssue (occurrences minRequired : Nat) : Issue :=
  { type := .belowMinOccurrences
    context := { occurrences := occurrences, minRequired := minRequired } }

/-- Finalize for the periodic engine (`periodic.go`, lines 88–141): gap
issues for consecutive pairs, then one BelowMinOccurrences issue when
`minOccurrences > 0` and the match count is below it. -/
def PeriodicEngine.finalizeIssues (e : PeriodicEngine) : List Issue :=
  gapIssues e.maxGap e.matchList ++
    (if 0 < e.minOccurrences ∧ e.matchList.length < e.minOccurrences
      then [belowMinIssue e.matchList.length e.minOccurrences] else [])

/-! ## Format detector (`pkg/detector/detector.go`) -/

/-- DetFormat abstracts one catalog entry of the detector: its regex (as a
`Matcher`) and the timestamp parse under its layout (`Detector.parseTimestamp`
specialised to the format, `some` a time point or `none`).  Catalog names
are unique, so per-format counting stands for the name-keyed stats map. -/
structure DetFormat where
  name : String
  pattern : Matcher
  parse : String → Option Int

/-- goTrimSpace models `strings.TrimSpace` at the character level: drop
whitespace from both ends. -/
def goTrimSpace (cs : List Char) : List Char :=
  ((cs.dropWhile Char.isWhitespace).reverse.dropWhile Char.isWhitespace).reverse

/-- trimmed is the line after the detector's `strings.TrimSpace`. -/
def trimmed (line : String) : String :=
  String.mk (goTrimSpace line.toList)

/-- lineEligible is the detector's per-line skip test
(`detector.go`, lines 92–95): after TrimSpace, skip empty lines and lines
beginning with `#` (`strings.HasPrefix` with the one-character `#`). -/
def lineEligible (line : String) : Bool :=
  let l := goTrimSpace line.toList
  !(l.isEmpty || l.head? == some '#')

/-- detFormatMatches tells whether one (trimmed) line counts as a match for
a format (`detector.go`, lines 97–119): the pattern must yield at least a
whole match and one group, and the first group must parse. -/
def detFormatMatches (f : DetFormat) (line : String) : Bool :=
  match f.pattern (trimmed line) with
  | none => false
  | some ms => decide (2 ≤ ms.length) && (f.parse (ms.getD 1 "")).isSome

/-- detMatchCount is the matchCount the detector accumulates for a format
over the sampled lines (ineligible lines are skipped before matching). -/
def detMatchCount (f : DetFormat) (lines : List String) : Nat :=
  lines.countP fun line => lineEligible line && detFormatMatches f line

/-- detConfidence is the confidence the detector reports for a format
(`detector.go`, line 126): `float64(s.matchCount) / float64(len(lines))`,
the denominator being the length of the full input list.  The division is
modelled exactly over `ℚ`; the claims at issue compare small integer ratios
that float64 represents exactly. -/
def detConfidence (f : DetFormat) (lines : List String) : ℚ :=
  (detMatchCount f lines : ℚ) / (lines.length : ℚ)

/-- wDetFormat is a format whose pattern matches any line, capturing the
whole line, and whose parse always succeeds. -/
def wDetFormat : DetFormat :=
  { name := "always", pattern := fun s => some [s, s], parse := fun _ => some 0 }

/-- wDetLines is a sample containing one comment line and one ordinary
line. -/
def wDetLines : List String := ["# note", "x"]

/-! ## Unix-seconds timestamp parsing

Claim C7 concerns two functions: `Detector.parseTimestamp`
(`detector.go`, lines 159–191), which special-cases the `UNIX_SECONDS`
layout with `strconv.ParseInt` plus a `[0, 4102444800]` range check, and
`TimestampExtractor.Extract` (`pkg/parser`, lines 70–85 of the file holding
`ExpandGlobs`), which hands every layout verbatim to `time.Parse`. -/

/-- decDigitsVal is the value of a list of decimal digit characters. -/
def decDigitsVal (cs : List Char) : Nat :=
  cs.foldl (fun acc c => acc * 10 + (c.toNat - 48)) 0

/-- splitSign models the sign handling of `strconv.ParseInt`: strip one
leading `+` or `-`, remembering whether the value is negated. -/
def splitSign : List Char → Bool × List Char
  | '+' :: rest => (false, rest)
  | '-' :: rest => (true, rest)
  | cs => (false, cs)

/-- goParseInt64 models `strconv.ParseInt(s, 10, 64)`: an optional sign
followed by at least one decimal digit and nothing else, erroring (`none`)
on syntax violations and on values outside the signed 64-bit range
(`9223372036854775808 = 2^63`; an empty string also has no digits and
errors). -/
def goParseInt64 (s : String) : Option Int :=
  let p := splitSign s.toList
  if p.2 = [] ∨ ¬ p.2.all Char.isDigit then none
  else
    let v : Int := (decDigitsVal p.2 : Int)
    if p.1 then (if v ≤ 9223372036854775808 then some (-v) else none)
    else if v ≤ 9223372036854775807 then some v else none

/-- parseTimestampUnixSeconds is `Detector.parseTimestamp` for the
`UNIX_SECONDS` layout (`detector.go`, lines 161–170): `ParseInt`, then the
sanity range `[0, 4102444800]`; the returned time point `time.Unix(secs,0)`
is represented by its seconds value. -/
def parseTimestampUnixSeconds (s : String) : Option Int :=
  match goParseInt64 s with
  | none => none
  | some secs => if secs < 0 ∨ secs > 4102444800 then none else some secs

/-- signedDecimalValue is the SPEC-side reading of "a signed decimal
integer": an optional sign followed by at least one decimal digit and
nothing else, with its unbounded integer value. -/
def signedDecimalValue (s : String) : Option Int :=
  let p := splitSign s.toList
  if p.2 = [] ∨ ¬ p.2.all Char.isDigit then none
  else some (if p.1 then -(decDigitsVal p.2 : Int) else (decDigitsVal p.2 : Int))

/-- goTimeParseLiteralOnlyLayout models Go `time.Parse(layout, value)` for a
layout containing none of Go's reference-time elements.  `"UNIX_SECONDS"`
is such a layout (no `2006`, `Jan`, `15`, `_2`, `Z07`, ... chunk occurs in
it), so the whole layout is literal text and parsing succeeds — with the
zero time — exactly when the value equals the layout. -/
def goTimeParseLiteralOnlyLayout (layout value : String) : Option Int :=
  if value = layout then some 0 else none

/-- extractWithUnixSecondsLayout is `TimestampExtractor.Extract` when the
configured layout string is `UNIX_SECONDS`: match the pattern, require
capture group 1, then call `time.Parse("UNIX_SECONDS", tsStr)`. -/
def extractWithUnixSecondsLayout (pattern : Matcher) (line : String) : Option Int :=
  match pattern line with
  | none => none
  | some ms =>
    if ms.length < 2 then none
    else goTimeParseLiteralOnlyLayout "UNIX_SECONDS" (ms.getD 1 "")

/-- wUnixPattern captures the leading digits of the concrete line used in
the C7 counterexample. -/
def wUnixPattern : Matcher := fun s =>
  if s = "4102444800 boot" then some ["4102444800", "4102444800"] else none

/-! ## Analyzer orchestrator (`Analyzer.Analyze`)

Go map iteration order is unspecified (and deliberately randomized): the
sequence engine's Finalize ranges over its `openSequences` map.  The
embedding threads a `MapIterOrder` — the enumeration strategy a run
happens to use — through finalize; a strategy is valid when it enumerates
exactly the map's entries, i.e. returns a permutation of them. -/

/-- MapIterOrder is the iteration strategy applied to a map's entry list at
finalize. -/
def MapIterOrder : Type :=
  List (String × sequenceTracker) → List (String × sequenceTracker)

/-- ValidIterOrder holds for strategies that enumerate exactly the entries
of every map, as every Go map iteration does. -/
def ValidIterOrder (ord : MapIterOrder) : Prop :=
  ∀ l, (ord l).Perm l

/-- EngineState is the tagged union of the three engine variants behind the
`RuleEngine` interface (`pkg/analyzer/interface.go`). -/
inductive EngineState where
  | seq : SequenceEngine → EngineState
  | per : PeriodicEngine → EngineState
  | cond : ConditionalEngine → EngineState

/-- Dispatch of `Process` over the engine variants. -/
def EngineState.process (line : ParsedLine) : EngineState → EngineState
  | .seq e => .seq (e.process line)
  | .per e => .per (e.process line)
  | .cond e => .cond (e.process line)

/-- Dispatch of `Reset` over the engine variants: clear state and stats. -/
def EngineState.reset : EngineState → EngineState
  | .seq e => .seq { e with openSequences := [], stats := {} }
  | .per e => .per { e with matchList := [], stats := {} }
  | .cond e => .cond { e with triggers := [], stats := {} }

/-- RuleResult is the per-rule outcome of Finalize: the issue list and the
deterministic counters (rule name/type/description are configuration
constants and omitted; wall-clock stats are timing data, see the header). -/
structure RuleResult where
  issues : List Issue
  stats : RuleStats
deriving DecidableEq, Repr

/-- Stats accessor over the engine variants. -/
def EngineState.stats : EngineState → RuleStats
  | .seq e => e.stats
  | .per e => e.stats
  | .cond e => e.stats

/-- Dispatch of `Finalize` over the engine variants; only the sequence
engine iterates a Go map, so only it consumes the iteration strategy. -/
def EngineState.finalizeResult (ord : MapIterOrder) : EngineState → RuleResult
  | .seq e => { issues := seqFinalizeIssues e.timeout (ord e.openSequences), stats := e.stats }
  | .per e => { issues := e.finalizeIssues, stats := e.stats }
  | .cond e => { issues := e.finalizeIssues, stats := e.stats }

/-- analyzeRun is the record loop of `Analyzer.Analyze` (lines 177–213 of
its file): pull each record, skip it when a time window is configured and
the timestamp falls outside `[start, end]` (`Before(start) || After(end)`),
otherwise count it and push it through every engine.  Returns the final
engines and the lines-processed count.  (I/O errors and cancellation
abort the run and produce no result; they are outside these claims.) -/
def analyzeRun (tr : Option (Int × Int)) :
    List EngineState → List ParsedLine → List EngineState × Nat
  | engines, [] => (engines, 0)
  | engines, line :: rest =>
    let skip :=
      match tr with
      | some (s, e) => line.ts < s || line.ts > e
      | none => false
    if skip then analyzeRun tr engines rest
    else
      let out := analyzeRun tr (engines.map (·.process line)) rest
      (out.1, out.2 + 1)

/-- seenSources is the first-seen-order deduplicated source list that
`Analyze` accumulates (before the time filter is applied). -/
def seenSources (records : List ParsedLine) : List String :=
  records.foldl (fun acc r => if r.source ∈ acc then acc else acc ++ [r.source]) []

/-- AnalysisResult carries the per-rule results and the deterministic
metadata (sources, lines processed); wall-clock metadata is timing data. -/
structure AnalysisResult where
  results : List RuleResult
  sources : List String
  linesProcessed : Nat
deriving DecidableEq, Repr

/-- analyze is `Analyzer.Analyze`: reset every engine, run the record loop,
then finalize every engine in order. -/
def analyze (ord : MapIterOrder) (tr : Option (Int × Int))
    (engines : List EngineState) (records : List ParsedLine) : AnalysisResult :=
  let out := analyzeRun tr (engines.map EngineState.reset) records
  { results := out.1.map (EngineState.finalizeResult ord)
    sources := seenSources records
    linesProcessed := out.2 }

/-- perW8 is a periodic engine requiring at least one occurrence. -/
def perW8 : PeriodicEngine :=
  { maxGap := 100, minOccurrences := 1, pattern := fun _ => true }

/-- recW8 is one record at time 0 (outside the empty window `[2, 1]`). -/
def recW8 : ParsedLine := { raw := "x", ts := 0, source := "s.log", lineNum := 1 }

/-- seqW9 is a sequence engine whose start pattern matches every line,
capturing the whole line as the correlation id, and whose end pattern never
matches. -/
def seqW9 : SequenceEngine :=
  { timeout := 0
    corrField := 1
    startPattern := fun s => some [s, s]
    endPattern := fun _ => none }

/-- recsW9 opens two sequences with distinct ids `a` and `b`. -/
def recsW9 : List ParsedLine :=
  [{ raw := "a", ts := 0, source := "s.log", lineNum := 1 },
   { raw := "b", ts := 1, source := "s.log", lineNum := 2 }]

/-! ## Merged source (`MergedSource` and its `container/heap` min-heap)

The Go code keeps a `lineHeap` (a slice of `*heapItem`) ordered through the
generic `container/heap` package.  `lineHeap.Less(i, j)` compares only the
timestamps — `h[i].line.Timestamp.Before(h[j].line.Timestamp)` — with no
source-index tie-break.  The embedding reproduces `container/heap`'s
`up`/`down`/`Init`/`Push`/`Pop` over a `List heapItem`; the loops of `up`
and `down` are written with an explicit iteration budget (`up` moves its
index strictly down, `down` strictly up toward `n`, so the budgets passed
by `heapUp`/`heapDown` are never exhausted before the loops' own exit
conditions fire — the lemmas carry that as the invariants `j < gas` and
`n ≤ i + gas`). -/

/-- heapItem wraps a ParsedLine with its source index for the priority
queue. -/
structure heapItem where
  line : ParsedLine
  sourceIdx : Nat
deriving DecidableEq, Repr, Inhabited

/-- lineHeap is the slice underlying the priority queue. -/
abbrev LineHeap : Type := List heapItem

/-- lhGet is slice indexing `h[i]` (the heap code never indexes out of
bounds; out-of-range reads default). -/
def lhGet (h : LineHeap) (i : Nat) : heapItem :=
  List.getD (h : List heapItem) i default

/-- lhLess is `lineHeap.Less(i, j)`: timestamp `Before` only, no
tie-break. -/
def lhLess (h : LineHeap) (i j : Nat) : Bool :=
  decide ((lhGet h i).line.ts < (lhGet h j).line.ts)

/-- lhSwap is `lineHeap.Swap(i, j)`. -/
def lhSwap (h : LineHeap) (i j : Nat) : LineHeap :=
  List.set (List.set (h : List heapItem) i (lhGet h j)) j (lhGet h i)

/-- lhLen is `lineHeap.Len()`. -/
def lhLen (h : LineHeap) : Nat := List.length (h : List heapItem)

/-- downAux is `container/heap.down` with an explicit budget (the `j1 < 0`
test in Go guards machine-int overflow, which `Nat` excludes). -/
def downAux : Nat → LineHeap → Nat → Nat → LineHeap
  | 0, h, _, _ => h
  | gas + 1, h, i, n =>
    let j1 := 2 * i + 1
    if j1 < n then
      let j := if (decide (j1 + 1 < n)) && lhLess h (j1 + 1) j1 then j1 + 1 else j1
      if lhLess h j i then downAux gas (lhSwap h i j) j n else h
    else h

/-- heapDown runs the `down` loop; a budget of `n` suffices since the index
strictly increases while staying below `n`. -/
def heapDown (h : LineHeap) (i n : Nat) : LineHeap := downAux n h i n

/-- upAux is `container/heap.up` with an explicit budget. -/
def upAux : Nat → LineHeap → Nat → LineHeap
  | 0, h, _ => h
  | gas + 1, h, j =>
    let i := (j - 1) / 2
    if i = j || !(lhLess h j i) then h
    else upAux gas (lhSwap h i j) i

/-- heapUp runs the `up` loop; a budget of `j + 1` suffices since the index
strictly decreases. -/
def heapUp (h : LineHeap) (j : Nat) : LineHeap := upAux (j + 1) h j

/-- heapPush is `container/heap.Push`: append (the `lineHeap.Push` method)
then sift the new last element up. -/
def heapPush (h : LineHeap) (x : heapItem) : LineHeap :=
  heapUp ((h : List heapItem) ++ [x]) (lhLen h)

/-- heapPop is `container/heap.Pop`: swap the root with the last element,
sift the new root down within the shortened prefix, then remove and return
the last element (the `lineHeap.Pop` method). -/
def heapPop (h : LineHeap) : heapItem × LineHeap :=
  let n := lhLen h - 1
  let h2 := heapDown (lhSwap h 0 n) 0 n
  (lhGet h2 n, List.take n (h2 : List heapItem))

/-- heapInitAux runs `down` at indices `k-1, k-2, ..., 0`. -/
def heapInitAux : Nat → LineHeap → LineHeap
  | 0, h => h
  | k + 1, h => heapInitAux k (heapDown h k (lhLen h))

/-- heapInit is `container/heap.Init`: `down` at `n/2 - 1 .. 0`. -/
def heapInit (h : LineHeap) : LineHeap := heapInitAux (lhLen h / 2) h

/-- lhTS is the timestamp at a heap slot, the quantity `lineHeap.Less`
compares. -/
def lhTS (h : LineHeap) (k : Nat) : Int := (lhGet h k).line.ts

/-- IsHeapPre states the binary min-heap order on the first `n` slots:
every node is ≤ its children, expressed parent-wise. -/
def IsHeapPre (h : LineHeap) (n : Nat) : Prop :=
  ∀ j, 0 < j → j < n → lhTS h ((j - 1) / 2) ≤ lhTS h j

/-- IsHeap is the heap order on the whole slice, the invariant
`container/heap` maintains. -/
def IsHeap (h : LineHeap) : Prop :=
  IsHeapPre h (List.length (h : List heapItem))

/-- AlmostUp is the sift-up invariant: the heap order holds everywhere
except possibly on the edge into `j`, and `j`'s parent bounds `j`'s
children. -/
def AlmostUp (h : LineHeap) (j : Nat) : Prop :=
  (∀ k, 0 < k → k < List.length (h : List heapItem) → k ≠ j →
    lhTS h ((k - 1) / 2) ≤ lhTS h k) ∧
  (0 < j → ∀ k, k < List.length (h : List heapItem) → (k - 1) / 2 = j →
    lhTS h ((j - 1) / 2) ≤ lhTS h k)

/-- AlmostDown is the sift-down invariant on the prefix `n`: the heap order
holds on every edge not out of `i`, and `i`'s parent bounds `i`'s
children. -/
def AlmostDown (h : LineHeap) (i n : Nat) : Prop :=
  (∀ k, 0 < k → k < n → (k - 1) / 2 ≠ i → lhTS h ((k - 1) / 2) ≤ lhTS h k) ∧
  (0 < i → ∀ k, k < n → (k - 1) / 2 = i → lhTS h ((i - 1) / 2) ≤ lhTS h k)

/-! The merged source itself. -/

/-- MergedState is the run-time state of a `MergedSource`: the heap and, for
each underlying source (modelled as its list of remaining records, already
error-free — I/O errors abort the merge and are outside these claims), the
records not yet pulled. -/
structure MergedState where
  heap : LineHeap
  srcs : List (List ParsedLine)

/-- initItems lists, in source order, the first record of each non-empty
source tagged with its (absolute) source index — the items the `initHeap`
loop pushes. -/
def initItems (k : Nat) : List (List ParsedLine) → List heapItem
  | [] => []
  | src :: rest =>
    match src with
    | [] => initItems (k + 1) rest
    | line :: _ => { line := line, sourceIdx := k } :: initItems (k + 1) rest

/-- mergedInit is `MergedSource.initHeap`: `heap.Init` on the empty heap,
then one `heap.Push` of the first record of each non-empty source, tagged
with the source index; every source advances by one pull (an empty source
stays empty, matching the skipped `io.EOF`). -/
def mergedInit (sources : List (List ParsedLine)) : MergedState :=
  { heap := (initItems 0 sources).foldl heapPush (heapInit ([] : LineHeap))
    srcs := sources.map List.tail }

/-- mergedRunAux pulls records to EOF: while the heap is non-empty, pop the
root, emit its line, and refill from the same source when it still has
records (`MergedSource.Next`, lines 29–56 of its file).  The fuel only
bounds the loop; `mergedRun` passes the total record count, which is exactly
the number of iterations. -/
def mergedRunAux : Nat → MergedState → List ParsedLine
  | 0, _ => []
  | fuel + 1, st =>
    if (st.heap : List heapItem) = [] then []
    else
      let p := heapPop st.heap
      match st.srcs.getD p.1.sourceIdx [] with
      | [] => p.1.line :: mergedRunAux fuel { heap := p.2, srcs := st.srcs }
      | nl :: tail =>
        p.1.line :: mergedRunAux fuel
          { heap := heapPush p.2 { line := nl, sourceIdx := p.1.sourceIdx }
            srcs := st.srcs.set p.1.sourceIdx tail }

/-- totalCount is the number of records still to be emitted. -/
def totalCount (st : MergedState) : Nat :=
  List.length (st.heap : List heapItem) + (st.srcs.map List.length).sum

/-- mergedRun is the full pull-to-EOF record stream of a `MergedSource` over
the given sources. -/
def mergedRun (sources : List (List ParsedLine)) : List ParsedLine :=
  mergedRunAux (totalCount (mergedInit sources)) (mergedInit sources)

/-- MergedInv is the run invariant: the heap order holds, every source's
remaining records are sorted, and every heap item is ≤ every remaining
record of its own source. -/
def MergedInv (st : MergedState) : Prop :=
  IsHeap st.heap ∧
  (∀ src ∈ st.srcs, src.Pairwise fun a b => a.ts ≤ b.ts) ∧
  (∀ item ∈ (st.heap : List heapItem), ∀ r ∈ st.srcs.getD item.sourceIdx [],
    item.line.ts ≤ r.ts)

/-- mergedW3 interleaves two sorted sources. -/
def mergedW3 : List (List ParsedLine) :=
  [[{ raw := "a1", ts := 1, source := "a.log", lineNum := 1 },
    { raw := "a2", ts := 3, source := "a.log", lineNum := 2 }],
   [{ raw := "b1", ts := 2, source := "b.log", lineNum := 1 }]]

/-- mergedW2 exhibits a timestamp tie between the next-available records of
source 0 (`a2`, time 5) and source 1 (`b1`, time 5). -/
def mergedW2 : List (List ParsedLine) :=
  [[{ raw := "a1", ts := 1, source := "a.log", lineNum := 1 },
    { raw := "a2", ts := 5, source := "a.log", lineNum := 2 }],
   [{ raw := "b1", ts := 5, source := "b.log", lineNum := 1 }]]

/-- SourcesCovered: every source that still has records has an item in the
heap — the invariant that makes the heap-empty test equivalent to
end-of-input. -/
def SourcesCovered (st : MergedState) : Prop :=
  ∀ i, i < st.srcs.length → st.srcs.getD i [] ≠ [] →
    ∃ item ∈ (st.heap : List heapItem), item.sourceIdx = i

/-- wMatchERROR is a concrete matcher: matches the exact line `ERROR` with
one capture group `a`. -/
def wMatchERROR : Matcher := fun s =>
  if s = "ERROR" then some ["ERROR", "a"] else none

/-- wMatchALERT is a concrete matcher: matches the exact line `ALERT` with
one capture group `a`. -/
def wMatchALERT : Matcher := fun s =>
  if s = "ALERT" then some ["ALERT", "a"] else none

/-- wMatchBOTH is a concrete matcher with no capture groups, matching the
exact line `BOTH`. -/
def wMatchBOTH : Matcher := fun s =>
  if s = "BOTH" then some ["BOTH"] else none

/-- condW1 is a conditional engine with a correlation group and one pending
trigger with id `a` at time 0. -/
def condW1 : ConditionalEngine :=
  { timeout := 10
    corrField := 1
    triggerPattern := wMatchERROR
    expectedPattern := wMatchALERT
    triggers := [{ correlationID := "a", timestamp := 0, source := "a.log", lineNum := 1 }] }

/-- condWLine is an expected-event record at time 5. -/
def condWLine : ParsedLine :=
  { raw := "ALERT", ts := 5, source := "a.log", lineNum := 2 }

/-- condW2 is a conditional engine without a correlation group whose trigger
and expected patterns both match the line `BOTH`. -/
def condW2 : ConditionalEngine :=
  { timeout := 10
    corrField := 0
    triggerPattern := wMatchBOTH
    expectedPattern := wMatchBOTH }

/-- condWLine2 is a record matching both patterns of `condW2`. -/
def condWLine2 : ParsedLine :=
  { raw := "BOTH", ts := 100, source := "b.log", lineNum := 1 }

/-- seqW is a sequence engine with one open entry for id `a` started at
time 0; its end pattern matches the line `ALERT`, capturing `a`. -/
def seqW : SequenceEngine :=
  { timeout := 10
    corrField := 1
    startPattern := wMatchERROR
    endPattern := wMatchALERT
    openSequences :=
      [("a", { correlationID := "a", startTime := 0, source := "s.log", lineNum := 1 })] }

/-! ## Theorems -/

/-- With a correlation group configured, the removal loop keeps exactly the
unsatisfied triggers, in order. -/
theorem removeSatisfiedAux_pos (corrField : Nat) (timeout : Int) (corrID : String)
    (eventTime : Int) (orig : List triggerEvent) (hpos : 0 < corrField) :
    ∀ rest acc, removeSatisfiedAux corrField timeout corrID eventTime orig acc rest =
      acc ++ rest.filter (fun t => !condSatisfied corrField timeout corrID eventTime t) := by
  intro rest
  induction rest with
  | nil => intro acc; simp [removeSatisfiedAux]
  | cons t rest ih =>
    intro acc
    by_cases hsat : condSatisfied corrField timeout corrID eventTime t
    · rw [removeSatisfiedAux, if_pos hsat, if_neg (Nat.pos_iff_ne_zero.mp hpos), ih,
        List.filter_cons_of_neg (by simp [hsat])]
    · rw [removeSatisfiedAux, if_neg hsat, ih,
        List.filter_cons_of_pos (by simp [hsat])]
      simp

/-- Without a correlation group, the loop (whose break path drops the suffix
`orig[len(acc)+1:]`) computes `removeFirstSatisfied`. -/
theorem removeSatisfiedAux_zero (timeout : Int) (corrID : String)
    (eventTime : Int) (orig : List triggerEvent) :
    ∀ rest acc, orig.drop acc.length = rest →
      removeSatisfiedAux 0 timeout corrID eventTime orig acc rest =
        acc ++ removeFirstSatisfied timeout eventTime rest := by
  intro rest
  induction rest with
  | nil => intro acc _; simp [removeSatisfiedAux, removeFirstSatisfied]
  | cons t rest ih =>
    intro acc hdrop
    by_cases hsat : eventTime - t.timestamp ≤ timeout
    · rw [removeSatisfiedAux, if_pos (by simp [condSatisfied, hsat]), if_pos rfl,
        removeFirstSatisfied, if_pos hsat]
      have : orig.drop (acc.length + 1) = rest := by
        rw [← List.drop_drop, hdrop]; rfl
      rw [this]
    · rw [removeSatisfiedAux, if_neg (by simp [condSatisfied, hsat]),
        removeFirstSatisfied, if_neg hsat, ih]
      · simp
      · rw [List.length_append, List.length_cons, List.length_nil,
          ← List.drop_drop, hdrop]; rfl

/-- Specification form of `removeSatisfiedTriggers` with a correlation
group: filter out exactly the satisfied triggers. -/
theorem removeSatisfiedTriggers_pos (e : ConditionalEngine) (corrID : String)
    (eventTime : Int) (hpos : 0 < e.corrField) :
    (e.removeSatisfiedTriggers corrID eventTime).triggers =
      e.triggers.filter
        (fun t => !condSatisfied e.corrField e.timeout corrID eventTime t) := by
  unfold ConditionalEngine.removeSatisfiedTriggers
  rw [removeSatisfiedAux_pos _ _ _ _ _ hpos]
  rfl

/-- Specification form of `removeSatisfiedTriggers` without a correlation
group: remove exactly the first in-window trigger. -/
theorem removeSatisfiedTriggers_zero (e : ConditionalEngine) (corrID : String)
    (eventTime : Int) (hzero : e.corrField = 0) :
    (e.removeSatisfiedTriggers corrID eventTime).triggers =
      removeFirstSatisfied e.timeout eventTime e.triggers := by
  unfold ConditionalEngine.removeSatisfiedTriggers
  rw [hzero, removeSatisfiedAux_zero _ _ _ _ _ _ (by simp)]
  rfl

theorem removeFirstSatisfied_of_none (timeout eventTime : Int)
    (l : List triggerEvent) (h : ∀ t ∈ l, ¬ eventTime - t.timestamp ≤ timeout) :
    removeFirstSatisfied timeout eventTime l = l := by
  induction l with
  | nil => rfl
  | cons t rest ih =>
    rw [removeFirstSatisfied, if_neg (h t (by simp)), ih]
    intro u hu
    exact h u (by simp [hu])

theorem removeFirstSatisfied_decomp (timeout eventTime : Int)
    (pre post : List triggerEvent) (t : triggerEvent)
    (hpre : ∀ u ∈ pre, ¬ eventTime - u.timestamp ≤ timeout)
    (ht : eventTime - t.timestamp ≤ timeout) :
    removeFirstSatisfied timeout eventTime (pre ++ t :: post) = pre ++ post := by
  induction pre with
  | nil => simp [removeFirstSatisfied, ht]
  | cons u pre ih =>
    rw [List.cons_append, removeFirstSatisfied, if_neg (hpre u (by simp)),
      List.cons_append, ih]
    intro v hv
    exact hpre v (by simp [hv])

theorem removeFirstSatisfied_length (timeout eventTime : Int)
    (l : List triggerEvent) (h : ∃ t ∈ l, eventTime - t.timestamp ≤ timeout) :
    (removeFirstSatisfied timeout eventTime l).length + 1 = l.length := by
  induction l with
  | nil => simp at h
  | cons t rest ih =>
    by_cases ht : eventTime - t.timestamp ≤ timeout
    · rw [removeFirstSatisfied, if_pos ht]; rfl
    · rw [removeFirstSatisfied, if_neg ht, List.length_cons, List.length_cons, ih]
      rcases h with ⟨u, hu, hsat⟩
      rcases List.mem_cons.mp hu with h0 | h0
      · exact absurd (h0 ▸ hsat) ht
      · exact ⟨u, h0, hsat⟩

/-- Process of a line that matches only the expected pattern: the trigger
list is handed to `removeSatisfiedTriggers` with the extracted id. -/
theorem ConditionalEngine.process_expected_only (e : ConditionalEngine)
    (line : ParsedLine) (ems : List String)
    (hT : e.triggerPattern line.raw = none)
    (hE : e.expectedPattern line.raw = some ems) :
    (e.process line).triggers =
      (e.removeSatisfiedTriggers (extractCorrID e.corrField ems) line.ts).triggers := by
  simp [ConditionalEngine.process, hT, hE, ConditionalEngine.removeSatisfiedTriggers]

/-- Process of a line that matches both the trigger and the expected
pattern: the new trigger is appended first, then the removal runs over the
extended list. -/
theorem ConditionalEngine.process_both (e : ConditionalEngine)
    (line : ParsedLine) (tms ems : List String)
    (hT : e.triggerPattern line.raw = some tms)
    (hE : e.expectedPattern line.raw = some ems) :
    (e.process line).triggers =
      removeSatisfiedAux e.corrField e.timeout (extractCorrID e.corrField ems) line.ts
        (e.triggers ++ [({ correlationID := extractCorrID e.corrField tms
                           timestamp := line.ts
                           source := line.source
                           lineNum := line.lineNum } : triggerEvent)])
        []
        (e.triggers ++ [({ correlationID := extractCorrID e.corrField tms
                           timestamp := line.ts
                           source := line.source
                           lineNum := line.lineNum } : triggerEvent)]) := by
  simp [ConditionalEngine.process, hT, hE, ConditionalEngine.removeSatisfiedTriggers]

/-- C1: when a record matching only the expected regex arrives, then with a
correlation group configured exactly the pending triggers whose id equals
the expected's id and whose age `line.ts - trigger.ts` is within the timeout
are removed (the others are kept, in order); without a correlation group, if
no pending trigger is in window the list is unchanged, and otherwise exactly
the first (oldest, by the sortedness hypothesis) in-window pending trigger
is removed while all others remain. -/
theorem conditional_expected_removal (e : ConditionalEngine) (line : ParsedLine)
    (ems : List String)
    (hT : e.triggerPattern line.raw = none)
    (hE : e.expectedPattern line.raw = some ems)
    (hSorted : e.triggers.Pairwise (fun a b => a.timestamp ≤ b.timestamp)) :
    (0 < e.corrField →
      (e.process line).triggers =
        e.triggers.filter (fun t =>
          !(t.correlationID == extractCorrID e.corrField ems &&
            decide (line.ts - t.timestamp ≤ e.timeout)))) ∧
    (e.corrField = 0 →
      ((∀ t ∈ e.triggers, ¬ line.ts - t.timestamp ≤ e.timeout) →
        (e.process line).triggers = e.triggers) ∧
      (∀ pre t post, e.triggers = pre ++ t :: post →
        (∀ u ∈ pre, ¬ line.ts - u.timestamp ≤ e.timeout) →
        line.ts - t.timestamp ≤ e.timeout →
        (e.process line).triggers = pre ++ post ∧
        (∀ u ∈ e.triggers, line.ts - u.timestamp ≤ e.timeout →
          t.timestamp ≤ u.timestamp))) := by
  rw [e.process_expected_only line ems hT hE]
  constructor
  · intro hpos
    rw [removeSatisfiedTriggers_pos _ _ _ hpos]
    congr 1
    funext t
    simp [condSatisfied, hpos]
  · intro hzero
    rw [removeSatisfiedTriggers_zero _ _ _ hzero]
    refine ⟨removeFirstSatisfied_of_none _ _ _, ?_⟩
    intro pre t post hdecomp hpre ht
    refine ⟨by rw [hdecomp]; exact removeFirstSatisfied_decomp _ _ _ _ _ hpre ht, ?_⟩
    intro u hu hwin
    rw [hdecomp] at hu hSorted
    rcases List.mem_append.mp hu with hu | hu
    · exact absurd hwin (hpre u hu)
    · rcases List.mem_cons.mp hu with rfl | hu
      · exact le_refl _
      · exact (List.pairwise_cons.mp (List.pairwise_append.mp hSorted).2.1).1 u hu

/-- C10: a record matching both the trigger and the expected regex, for a
rule without a correlation group and a non-negative timeout, first appends a
pending trigger and then removes one in-window trigger (elapsed time zero
for the new one), leaving the pending-trigger count unchanged; when no
pre-existing trigger is in window the just-added one is the trigger removed,
and a single such record processed from the empty state leaves no pending
triggers and yields no MissingConsequence issues at finalize. -/
theorem conditional_self_satisfying (e : ConditionalEngine) (line : ParsedLine)
    (tms ems : List String)
    (hzero : e.corrField = 0)
    (hT : e.triggerPattern line.raw = some tms)
    (hE : e.expectedPattern line.raw = some ems)
    (hTimeout : 0 ≤ e.timeout) :
    (e.process line).triggers.length = e.triggers.length ∧
    ((∀ t ∈ e.triggers, ¬ line.ts - t.timestamp ≤ e.timeout) →
      (e.process line).triggers = e.triggers) ∧
    (e.triggers = [] →
      (e.process line).triggers = [] ∧ (e.process line).finalizeIssues = []) := by
  have hbase := e.process_both line tms ems hT hE
  rw [hzero] at hbase
  rw [removeSatisfiedAux_zero _ _ _ _ _ _ (by simp)] at hbase
  rw [List.nil_append] at hbase
  set newT : triggerEvent :=
    { correlationID := extractCorrID 0 tms
      timestamp := line.ts
      source := line.source
      lineNum := line.lineNum } with hnewT
  have hsat : line.ts - newT.timestamp ≤ e.timeout := by
    rw [hnewT]; simpa using hTimeout
  refine ⟨?_, ?_, ?_⟩
  · rw [hbase]
    have hl := removeFirstSatisfied_length e.timeout line.ts
      (e.triggers ++ [newT]) ⟨newT, by simp, hsat⟩
    simp only [List.length_append, List.length_cons, List.length_nil] at hl
    omega
  · intro hnone
    rw [hbase]
    have := removeFirstSatisfied_decomp e.timeout line.ts e.triggers [] newT hnone hsat
    simpa using this
  · intro hempty
    have htrig : (e.process line).triggers = [] := by
      rw [hbase, hempty]
      simp [removeFirstSatisfied, hsat, hTimeout]
    exact ⟨htrig, by simp [ConditionalEngine.finalizeIssues, htrig]⟩

theorem alistLookup_mem {k : String} {v : sequenceTracker}
    {l : List (String × sequenceTracker)} (h : alistLookup k l = some v) :
    (k, v) ∈ l := by
  induction l with
  | nil => simp [alistLookup] at h
  | cons p rest ih =>
    obtain ⟨k', v'⟩ := p
    rw [alistLookup] at h
    by_cases hk : k' = k
    · rw [if_pos hk] at h
      simp only [Option.some.injEq] at h
      simp [hk, h]
    · rw [if_neg hk] at h
      exact List.mem_cons_of_mem _ (ih h)

theorem alistLookup_alistErase_self {k : String}
    {l : List (String × sequenceTracker)} (h : (l.map Prod.fst).Nodup) :
    alistLookup k (alistErase k l) = none := by
  induction l with
  | nil => rfl
  | cons p rest ih =>
    obtain ⟨k', v'⟩ := p
    simp only [List.map_cons, List.nodup_cons] at h
    rw [alistErase]
    by_cases hk : k' = k
    · subst hk
      rw [if_pos rfl]
      clear ih
      induction rest with
      | nil => rfl
      | cons q rest' ih' =>
        obtain ⟨k₂, v₂⟩ := q
        simp only [List.map_cons, List.mem_cons, List.nodup_cons] at h
        rw [alistLookup, if_neg (by rintro rfl; exact h.1 (Or.inl rfl))]
        exact ih' ⟨fun hm => h.1 (Or.inr hm), h.2.2⟩
    · rw [if_neg hk, alistLookup, if_neg hk]
      exact ih h.2

/-- C4: for an open entry `(id, tr)` and an end-regex match carrying that
id, processing deletes the entry exactly when `line.ts - tr.startTime ≤
timeout` (the boundary is inclusive); when the elapsed time exceeds the
timeout the map is left unchanged and any finalize enumeration of it
reports a MissingEnd issue carrying the id, start time, source, line
number, and the configured timeout. -/
theorem sequence_end_within_timeout (e : SequenceEngine) (line : ParsedLine)
    (ms : List String) (id : String) (tr : sequenceTracker)
    (hNodup : (e.openSequences.map Prod.fst).Nodup)
    (hLookup : alistLookup id e.openSequences = some tr)
    (hStart : e.startPattern line.raw = none)
    (hEnd : e.endPattern line.raw = some ms)
    (hGroup : e.corrField ≤ ms.length - 1)
    (hId : ms.getD e.corrField "" = id) :
    ((alistLookup id (e.process line).openSequences = none) ↔
      line.ts - tr.startTime ≤ e.timeout) ∧
    (¬ line.ts - tr.startTime ≤ e.timeout →
      (e.process line).openSequences = e.openSequences ∧
      ∀ listing, listing.Perm (e.process line).openSequences →
        ({ type := .missingEnd
           context :=
             { correlationID := tr.correlationID
               startTime := tr.startTime
               source := tr.source
               lineNum := tr.lineNum
               timeout := e.timeout } } : Issue) ∈
          seqFinalizeIssues e.timeout listing) := by
  have hproc : (e.process line).openSequences =
      if line.ts - tr.startTime ≤ e.timeout then
        alistErase id e.openSequences
      else e.openSequences := by
    simp only [SequenceEngine.process, hStart, hEnd, hId, hGroup, if_pos, hLookup]
    split <;> rfl
  constructor
  · by_cases hin : line.ts - tr.startTime ≤ e.timeout
    · rw [hproc, if_pos hin]
      simp [hin, alistLookup_alistErase_self hNodup]
    · rw [hproc, if_neg hin]
      simp [hin, hLookup]
  · intro hout
    rw [hproc, if_neg hout]
    refine ⟨rfl, ?_⟩
    intro listing hperm
    have hmem : (id, tr) ∈ listing := hperm.mem_iff.mpr (alistLookup_mem hLookup)
    exact List.mem_map_of_mem _ hmem

theorem gapIssues_eq_zip (maxGap : Int) (l : List periodicMatch) :
    gapIssues maxGap l =
      ((l.zip l.tail).filter
        (fun p => decide (p.2.timestamp - p.1.timestamp > maxGap))).map
        (fun p => gapIssue maxGap p.1 p.2) := by
  induction l with
  | nil => rfl
  | cons prev rest ih =>
    cases rest with
    | nil => rfl
    | cons curr rest' =>
      rw [gapIssues, ih]
      by_cases hgap : curr.timestamp - prev.timestamp > maxGap
      · rw [if_pos hgap]
        simp [List.filter_cons, hgap]
      · rw [if_neg hgap]
        simp [List.filter_cons, hgap]

/-- C5: the periodic Finalize emits exactly one GapExceeded issue for each
consecutive pair of matches whose delta strictly exceeds max-gap and none
for the others (so zero or one match yields zero gap issues), plus exactly
one BelowMinOccurrences issue iff a minimum count > 0 is configured and the
match count is strictly below it. -/
theorem periodic_finalize_gaps_and_undercount (e : PeriodicEngine) :
    (e.finalizeIssues.filter (fun i => i.type == .gapExceeded) =
      ((e.matchList.zip e.matchList.tail).filter
        (fun p => decide (p.2.timestamp - p.1.timestamp > e.maxGap))).map
        (fun p => gapIssue e.maxGap p.1 p.2)) ∧
    (e.matchList.length ≤ 1 →
      e.finalizeIssues.filter (fun i => i.type == .gapExceeded) = []) ∧
    (e.finalizeIssues.countP (fun i => i.type == .belowMinOccurrences) =
      if 0 < e.minOccurrences ∧ e.matchList.length < e.minOccurrences
        then 1 else 0) := by
  have hgaponly : ∀ i ∈ gapIssues e.maxGap e.matchList, i.type = .gapExceeded := by
    intro i hi
    rw [gapIssues_eq_zip] at hi
    rcases List.mem_map.mp hi with ⟨p, _, rfl⟩
    rfl
  have hfilter : e.finalizeIssues.filter (fun i => i.type == .gapExceeded) =
      gapIssues e.maxGap e.matchList := by
    rw [PeriodicEngine.finalizeIssues, List.filter_append]
    have h1 : (gapIssues e.maxGap e.matchList).filter
        (fun i => i.type == .gapExceeded) = gapIssues e.maxGap e.matchList :=
      List.filter_eq_self.mpr fun i hi => by simp [hgaponly i hi]
    have h2 : ((if 0 < e.minOccurrences ∧ e.matchList.length < e.minOccurrences
        then [belowMinIssue e.matchList.length e.minOccurrences]
        else []) : List Issue).filter (fun i => i.type == .gapExceeded) = [] := by
      split <;> simp [belowMinIssue]
    rw [h1, h2, List.append_nil]
  refine ⟨hfilter.trans (gapIssues_eq_zip _ _), ?_, ?_⟩
  · intro hlen
    rw [hfilter]
    match hm : e.matchList, hlen with
    | [], _ => rfl
    | [_], _ => rfl
  · rw [PeriodicEngine.finalizeIssues, List.countP_append]
    have h1 : (gapIssues e.maxGap e.matchList).countP
        (fun i => i.type == .belowMinOccurrences) = 0 := by
      rw [List.countP_eq_zero]
      intro i hi
      simp [hgaponly i hi]
    rw [h1]
    split <;> simp [belowMinIssue]

/-- Counterexample for C6: on a line list containing a comment line, the
reported confidence is matchCount over the FULL list length (here `1/2`),
not over the non-blank, non-comment count (here `1/1`): the claim's
equality fails on this input. -/
theorem detector_confidence_counterexample :
    detConfidence wDetFormat wDetLines = 1 / 2 ∧
    wDetLines.countP lineEligible = 1 ∧
    detMatchCount wDetFormat wDetLines = 1 ∧
    detConfidence wDetFormat wDetLines ≠
      (detMatchCount wDetFormat wDetLines : ℚ) /
        (wDetLines.countP lineEligible : ℚ) := by
  have h1 : detMatchCount wDetFormat wDetLines = 1 := by decide
  have h2 : wDetLines.countP lineEligible = 1 := by decide
  have h3 : wDetLines.length = 2 := by decide
  refine ⟨?_, h2, h1, ?_⟩
  · rw [detConfidence, h1, h3]
    norm_num
  · rw [detConfidence, h1, h3, h2]
    norm_num

/-- C6 (amended): when every sampled line is non-blank and non-comment —
which is what `Detector.sampleFile` feeds `DetectFromLines`, since it drops
blank and `#` lines while sampling — the reported confidence equals the
number of lines matched and parsed under the format divided by the number
of non-blank, non-comment lines. -/
theorem detector_confidence_eligible (f : DetFormat) (lines : List String)
    (h : ∀ l ∈ lines, lineEligible l = true) :
    detConfidence f lines =
      (detMatchCount f lines : ℚ) / (lines.countP lineEligible : ℚ) := by
  have : lines.countP lineEligible = lines.length :=
    List.countP_eq_length.mpr h
  rw [detConfidence, this]

/-- Witness for the amended C6 on a concrete comment-free sample. -/
theorem detector_confidence_eligible_witness :
    detConfidence wDetFormat ["x", "y"] =
      (detMatchCount wDetFormat ["x", "y"] : ℚ) /
        ((["x", "y"] : List String).countP lineEligible : ℚ) :=
  detector_confidence_eligible wDetFormat ["x", "y"] (by decide)

/-- Counterexample for C7: under the configured layout `UNIX_SECONDS`, the
pipeline's timestamp extraction (`TimestampExtractor.Extract`) yields
no-match even though the captured substring `4102444800` is a signed
decimal integer inside `[0, 4102444800]` — the claimed "exactly when"
fails, because the range-checked Unix-seconds parse lives only in the
detector. -/
theorem unix_seconds_extractor_counterexample :
    extractWithUnixSecondsLayout wUnixPattern "4102444800 boot" = none ∧
    signedDecimalValue "4102444800" = some 4102444800 := by
  constructor
  · rfl
  · decide

/-- Unfolding of the range check around `goParseInt64`. -/
theorem parseTimestampUnixSeconds_isSome_iff (s : String) :
    (parseTimestampUnixSeconds s).isSome ↔
      ∃ w, goParseInt64 s = some w ∧ 0 ≤ w ∧ w ≤ 4102444800 := by
  rw [parseTimestampUnixSeconds]
  cases h : goParseInt64 s with
  | none => simp
  | some w =>
    constructor
    · intro hs
      by_cases hr : w < 0 ∨ w > 4102444800
      · simp [hr] at hs
      · exact ⟨w, rfl, by omega, by omega⟩
    · rintro ⟨w', hw', h0', h1'⟩
      simp only [Option.some.injEq] at hw'
      subst hw'
      have hr : ¬(w < 0 ∨ w > 4102444800) := by omega
      simp [hr]

/-- Inside `[0, 4102444800]` the 64-bit bounds of `strconv.ParseInt` never
bind, so the Go parse agrees with the unbounded grammar value. -/
theorem goParseInt64_agrees_in_range (s : String) (w : Int) (h0 : 0 ≤ w)
    (h1 : w ≤ 4102444800) :
    (goParseInt64 s = some w ↔ signedDecimalValue s = some w) := by
  rw [goParseInt64, signedDecimalValue]
  by_cases hsyn : (splitSign s.toList).2 = [] ∨ ¬ (splitSign s.toList).2.all Char.isDigit
  · rw [if_pos hsyn, if_pos hsyn]
  · rw [if_neg hsyn, if_neg hsyn]
    have hdv : (0 : Int) ≤ (decDigitsVal (splitSign s.toList).2 : Int) :=
      Int.natCast_nonneg _
    by_cases hneg : (splitSign s.toList).1
    · rw [if_pos hneg, if_pos hneg]
      constructor
      · intro h
        split at h
        · exact h
        · exact absurd h (by simp)
      · intro h
        simp only [Option.some.injEq] at h
        rw [if_pos (by omega)]
        exact congrArg some h
    · rw [if_neg hneg, if_neg hneg]
      constructor
      · intro h
        split at h
        · exact h
        · exact absurd h (by simp)
      · intro h
        simp only [Option.some.injEq] at h
        rw [if_pos (by omega)]
        exact congrArg some h

/-- C7 (amended): the detector's Unix-seconds parse
(`Detector.parseTimestamp` with layout `UNIX_SECONDS`) yields a time point
exactly when the substring is a signed decimal integer in
`[0, 4102444800]`; the boundary `4102444800` is accepted and `4102444801`
rejected.  (The pipeline `TimestampExtractor.Extract` instead treats
`UNIX_SECONDS` as a literal calendar layout and never yields a time point
for a decimal substring.) -/
theorem detector_unix_seconds_range :
    (∀ s : String, (parseTimestampUnixSeconds s).isSome ↔
      ∃ v, signedDecimalValue s = some v ∧ 0 ≤ v ∧ v ≤ 4102444800) ∧
    (parseTimestampUnixSeconds "4102444800").isSome ∧
    ¬ (parseTimestampUnixSeconds "4102444801").isSome := by
  refine ⟨?_, by decide, by decide⟩
  intro s
  rw [parseTimestampUnixSeconds_isSome_iff]
  constructor
  · rintro ⟨w, hg, h0, h1⟩
    exact ⟨w, (goParseInt64_agrees_in_range s w h0 h1).mp hg, h0, h1⟩
  · rintro ⟨v, hv, h0, h1⟩
    exact ⟨v, (goParseInt64_agrees_in_range s v h0 h1).mpr hv, h0, h1⟩

/-- When the time window is empty (`start > end`) every record is skipped
and the engines come out of the loop exactly as they went in. -/
theorem analyzeRun_empty_window (s e : Int) (hse : e < s)
    (engines : List EngineState) (records : List ParsedLine) :
    analyzeRun (some (s, e)) engines records = (engines, 0) := by
  induction records with
  | nil => rfl
  | cons line rest ih =>
    rw [analyzeRun]
    have hskip : (line.ts < s || line.ts > e) = true := by
      rcases lt_or_le line.ts s with h | h
      · simp [h]
      · simp only [Bool.or_eq_true, decide_eq_true_eq]
        right; omega
    simp only [hskip, if_pos]
    exact ih

/-- C8 (amended): with a time-range filter whose start exceeds its end, the
analysis processes zero lines, and the only issues any rule can report are
BelowMinOccurrences issues (from periodic rules with a configured minimum,
which report their undercount even over zero processed lines); sequence and
conditional rules report none. -/
theorem analyzer_empty_range (ord : MapIterOrder) (hord : ValidIterOrder ord)
    (s e : Int) (hse : e < s)
    (engines : List EngineState) (records : List ParsedLine) :
    (analyze ord (some (s, e)) engines records).linesProcessed = 0 ∧
    ∀ res ∈ (analyze ord (some (s, e)) engines records).results,
      ∀ issue ∈ res.issues, issue.type = .belowMinOccurrences := by
  rw [analyze, analyzeRun_empty_window s e hse]
  refine ⟨rfl, ?_⟩
  intro res hres issue hissue
  simp only [List.map_map, List.mem_map, Function.comp] at hres
  rcases hres with ⟨es, _, rfl⟩
  cases es with
  | seq eng =>
    simp only [EngineState.reset, EngineState.finalizeResult] at hissue
    have : ord ([] : List (String × sequenceTracker)) = [] :=
      (hord []).eq_nil
    rw [this] at hissue
    simp [seqFinalizeIssues] at hissue
  | per eng =>
    simp only [EngineState.reset, EngineState.finalizeResult,
      PeriodicEngine.finalizeIssues, gapIssues] at hissue
    rcases List.mem_append.mp hissue with h | h
    · simp at h
    · split at h
      · simp only [List.mem_singleton] at h
        rw [h]; rfl
      · simp at h
  | cond eng =>
    simp only [EngineState.reset, EngineState.finalizeResult,
      ConditionalEngine.finalizeIssues] at hissue
    simp at hissue

/-- Counterexample for C8: with the empty time window `start 2 > end 1`,
zero lines are processed, yet a periodic rule with min-occurrences 1
reports a BelowMinOccurrences issue — so "every rule's result contains
zero issues" fails. -/
theorem analyzer_empty_range_counterexample :
    (analyze id (some (2, 1)) [.per perW8] [recW8]).linesProcessed = 0 ∧
    (analyze id (some (2, 1)) [.per perW8] [recW8]).results.map
      (fun r => r.issues) = [[belowMinIssue 0 1]] := by
  constructor
  · rfl
  · rfl

/-! ## Determinism of `Analyze` up to map iteration order (C9) -/

/-- C9 (amended): the record loop never consults the iteration strategy,
and the only order-dependence of finalize is the sequence engine's map
enumeration: for any two valid strategies, re-running the same analysis
yields the same lines processed, the same sources, and per-rule results
with equal stats whose issue lists are permutations of each other; results
of periodic and conditional rules are identical outright. -/
theorem analyzer_deterministic_up_to_map_order (ord₁ ord₂ : MapIterOrder)
    (h₁ : ValidIterOrder ord₁) (h₂ : ValidIterOrder ord₂)
    (tr : Option (Int × Int)) (engines : List EngineState)
    (records : List ParsedLine) :
    (analyze ord₁ tr engines records).linesProcessed =
      (analyze ord₂ tr engines records).linesProcessed ∧
    (analyze ord₁ tr engines records).sources =
      (analyze ord₂ tr engines records).sources ∧
    List.Forall₂ (fun r₁ r₂ => r₁.stats = r₂.stats ∧ r₁.issues.Perm r₂.issues)
      (analyze ord₁ tr engines records).results
      (analyze ord₂ tr engines records).results ∧
    (∀ es : EngineState, (∀ se, es ≠ .seq se) →
      es.finalizeResult ord₁ = es.finalizeResult ord₂) := by
  refine ⟨rfl, rfl, ?_, ?_⟩
  · simp only [analyze]
    simp only [List.forall₂_map_right_iff, List.forall₂_map_left_iff]
    apply List.forall₂_same.mpr
    intro es _
    cases es with
    | seq eng =>
      refine ⟨rfl, ?_⟩
      exact ((h₁ eng.openSequences).trans (h₂ eng.openSequences).symm).map _
    | per eng => exact ⟨rfl, List.Perm.refl _⟩
    | cond eng => exact ⟨rfl, List.Perm.refl _⟩
  · intro es hns
    cases es with
    | seq eng => exact absurd rfl (hns eng)
    | per eng => rfl
    | cond eng => rfl

/-- Counterexample for C9: two runs of `Analyze` on identical inputs that
merely enumerate the sequence engine's open-sequence map in different
(both valid) orders produce different Results — the two MissingEnd issues
swap places — so Results are not identical across reruns. -/
theorem analyzer_rerun_counterexample :
    ValidIterOrder id ∧ ValidIterOrder List.reverse ∧
    analyze id none [.seq seqW9] recsW9 ≠
      analyze List.reverse none [.seq seqW9] recsW9 :=
  ⟨fun l => List.Perm.refl l, fun l => List.reverse_perm l, by decide⟩

/-- Witness for the amended C8 on the concrete empty-window analysis. -/
theorem analyzer_empty_range_witness :
    (analyze id (some (2, 1)) [.per perW8] [recW8]).linesProcessed = 0 ∧
    ∀ res ∈ (analyze id (some (2, 1)) [.per perW8] [recW8]).results,
      ∀ issue ∈ res.issues, issue.type = .belowMinOccurrences :=
  analyzer_empty_range id (fun l => List.Perm.refl l) 2 1 (by norm_num)
    [.per perW8] [recW8]

/-- Witness for the amended C9 on the concrete two-open-sequence analysis
with the identity and the reversing enumeration strategies. -/
theorem analyzer_deterministic_up_to_map_order_witness :
    (analyze id none [.seq seqW9] recsW9).linesProcessed =
      (analyze List.reverse none [.seq seqW9] recsW9).linesProcessed ∧
    (analyze id none [.seq seqW9] recsW9).sources =
      (analyze List.reverse none [.seq seqW9] recsW9).sources ∧
    List.Forall₂ (fun r₁ r₂ => r₁.stats = r₂.stats ∧ r₁.issues.Perm r₂.issues)
      (analyze id none [.seq seqW9] recsW9).results
      (analyze List.reverse none [.seq seqW9] recsW9).results ∧
    (∀ es : EngineState, (∀ se, es ≠ .seq se) →
      es.finalizeResult id = es.finalizeResult List.reverse) :=
  analyzer_deterministic_up_to_map_order id List.reverse
    (fun l => List.Perm.refl l) (fun l => l.reverse_perm) none
    [.seq seqW9] recsW9

/-! Basic bookkeeping about the heap operations. -/

theorem lhGet_eq_getElem {h : LineHeap} {i : Nat}
    (hi : i < List.length (h : List heapItem)) :
    lhGet h i = (h : List heapItem)[i] := by
  rw [lhGet, List.getD_eq_getElem?_getD, List.getElem?_eq_getElem hi, Option.getD_some]

theorem lhGet_mem {h : LineHeap} {i : Nat}
    (hi : i < List.length (h : List heapItem)) :
    lhGet h i ∈ (h : List heapItem) := by
  rw [lhGet_eq_getElem hi]
  exact List.getElem_mem hi

theorem length_lhSwap (h : LineHeap) (i j : Nat) :
    List.length (lhSwap h i j : List heapItem) = List.length (h : List heapItem) := by
  rw [lhSwap, List.length_set, List.length_set]

theorem mem_lhSwap {h : LineHeap} {i j : Nat} {x : heapItem}
    (hi : i < List.length (h : List heapItem))
    (hj : j < List.length (h : List heapItem))
    (hx : x ∈ (lhSwap h i j : List heapItem)) : x ∈ (h : List heapItem) := by
  rcases List.mem_or_eq_of_mem_set hx with hx' | rfl
  · rcases List.mem_or_eq_of_mem_set hx' with hx'' | rfl
    · exact hx''
    · exact lhGet_mem hj
  · exact lhGet_mem hi

theorem lhSwap_perm {h : LineHeap} {i j : Nat}
    (hi : i < List.length (h : List heapItem))
    (hj : j < List.length (h : List heapItem)) :
    (lhSwap h i j : List heapItem).Perm (h : List heapItem) := by
  rw [List.perm_iff_count]
  intro a
  have hset : ∀ (l : List heapItem) (k : Nat) (b : heapItem) (hk : k < l.length),
      (l.set k b).count a + (if l.get ⟨k, hk⟩ = a then 1 else 0) =
        l.count a + (if b = a then 1 else 0) := by
    intro l k b hk
    rw [List.set_eq_take_cons_drop b hk]
    conv_rhs => rw [← List.take_append_drop k l, List.drop_eq_getElem_cons hk]
    rw [List.count_append, List.count_append, List.count_cons, List.count_cons]
    simp only [beq_iff_eq, List.get_eq_getElem]
    split_ifs <;> omega
  have h2 : j < ((h : List heapItem).set i (lhGet h j)).length := by
    rw [List.length_set]; exact hj
  have e1 := hset (h : List heapItem) i (lhGet h j) hi
  have e2 := hset ((h : List heapItem).set i (lhGet h j)) j (lhGet h i) h2
  have hjval : ((h : List heapItem).set i (lhGet h j)).get ⟨j, h2⟩ = lhGet h j := by
    rw [List.get_eq_getElem]
    by_cases hij : i = j
    · subst hij
      exact List.getElem_set_self _
    · rw [List.getElem_set_ne hij]
      exact (lhGet_eq_getElem hj).symm
  have hgi : (h : List heapItem).get ⟨i, hi⟩ = lhGet h i := by
    rw [List.get_eq_getElem]
    exact (lhGet_eq_getElem hi).symm
  rw [hjval] at e2
  rw [hgi] at e1
  rw [lhSwap]
  split_ifs at e1 e2 <;> omega

theorem length_downAux (gas : Nat) :
    ∀ (h : LineHeap) (i n : Nat),
      List.length (downAux gas h i n : List heapItem) =
        List.length (h : List heapItem) := by
  induction gas with
  | zero => intro h i n; rfl
  | succ gas ih =>
    intro h i n
    rw [downAux]
    dsimp only
    repeat' split
    all_goals first | rw [ih, length_lhSwap] | rfl

theorem length_upAux (gas : Nat) :
    ∀ (h : LineHeap) (j : Nat),
      List.length (upAux gas h j : List heapItem) =
        List.length (h : List heapItem) := by
  induction gas with
  | zero => intro h j; rfl
  | succ gas ih =>
    intro h j
    rw [upAux]
    try dsimp only
    repeat' split
    all_goals first | rw [ih, length_lhSwap] | rfl

theorem length_heapPush (h : LineHeap) (x : heapItem) :
    List.length (heapPush h x : List heapItem) =
      List.length (h : List heapItem) + 1 := by
  rw [heapPush, heapUp, length_upAux, List.length_append, List.length_singleton]

theorem lhGet_set_self {l : List heapItem} {i : Nat} (v : heapItem)
    (hi : i < l.length) : lhGet (l.set i v) i = v := by
  rw [lhGet, List.getD_eq_getElem?_getD, List.getElem?_set_self hi, Option.getD_some]

theorem lhGet_set_ne {l : List heapItem} {i k : Nat} (v : heapItem)
    (hik : i ≠ k) : lhGet (l.set i v) k = lhGet l k := by
  rw [lhGet, lhGet, List.getD_eq_getElem?_getD, List.getD_eq_getElem?_getD,
    List.getElem?_set_ne hik]

theorem lhGet_lhSwap_fst {h : LineHeap} {i j : Nat}
    (hi : i < List.length (h : List heapItem))
    (hj : j < List.length (h : List heapItem)) :
    lhGet (lhSwap h i j) i = lhGet h j := by
  rw [lhSwap]
  by_cases hij : i = j
  · subst hij
    rw [lhGet_set_self _ (by rw [List.length_set]; exact hi)]
  · rw [lhGet_set_ne _ (fun hji => hij hji.symm), lhGet_set_self _ hi]

theorem lhGet_lhSwap_snd {h : LineHeap} {i j : Nat}
    (hj : j < List.length (h : List heapItem)) :
    lhGet (lhSwap h i j) j = lhGet h i := by
  rw [lhSwap, lhGet_set_self _ (by rw [List.length_set]; exact hj)]

theorem lhGet_lhSwap_other {h : LineHeap} {i j k : Nat}
    (hik : i ≠ k) (hjk : j ≠ k) :
    lhGet (lhSwap h i j) k = lhGet h k := by
  rw [lhSwap, lhGet_set_ne _ hjk, lhGet_set_ne _ hik]

theorem perm_downAux (gas : Nat) :
    ∀ (h : LineHeap) (i n : Nat), n ≤ List.length (h : List heapItem) →
      (downAux gas h i n : List heapItem).Perm h := by
  induction gas with
  | zero => intro h i n _; exact List.Perm.refl _
  | succ gas ih =>
    intro h i n hn
    rw [downAux]
    dsimp only
    by_cases h1 : 2 * i + 1 < n
    · rw [if_pos h1]
      have hjlt : ∀ j, j < n →
          lhLess h j i = true →
          (downAux gas (lhSwap h i j) j n : List heapItem).Perm h := by
        intro j hjn _
        have hij : i < List.length (h : List heapItem) := by omega
        have hjl : j < List.length (h : List heapItem) := by omega
        exact (ih (lhSwap h i j) j n (by rw [length_lhSwap]; exact hn)).trans
          (lhSwap_perm hij hjl)
      split
      · split
        · rename_i hcond hless
          refine hjlt _ ?_ hless
          simp only [Bool.and_eq_true, decide_eq_true_eq] at hcond
          omega
        · exact List.Perm.refl _
      · split
        · rename_i hcond hless
          exact hjlt _ h1 hless
        · exact List.Perm.refl _
    · rw [if_neg h1]

theorem perm_upAux (gas : Nat) :
    ∀ (h : LineHeap) (j : Nat), j < List.length (h : List heapItem) →
      (upAux gas h j : List heapItem).Perm h := by
  induction gas with
  | zero => intro h j _; exact List.Perm.refl _
  | succ gas ih =>
    intro h j hj
    rw [upAux]
    try dsimp only
    split
    · exact List.Perm.refl _
    · rename_i hcond
      have hne : ¬ (j - 1) / 2 = j := by
        intro hc
        simp [hc] at hcond
      have hij : (j - 1) / 2 < List.length (h : List heapItem) := by omega
      exact (ih (lhSwap h ((j - 1) / 2) j) ((j - 1) / 2)
        (by rw [length_lhSwap]; omega)).trans (lhSwap_perm hij hj)

theorem perm_heapPush (h : LineHeap) (x : heapItem) :
    (heapPush h x : List heapItem).Perm (x :: (h : List heapItem)) := by
  rw [heapPush, heapUp]
  exact (perm_upAux _ _ _ (by simp [lhLen])).trans
    (List.perm_append_singleton x (h : List heapItem))

theorem lhGet_downAux_of_ge (gas : Nat) :
    ∀ (h : LineHeap) (i n k : Nat), n ≤ k →
      lhGet (downAux gas h i n) k = lhGet h k := by
  induction gas with
  | zero => intro h i n k _; rfl
  | succ gas ih =>
    intro h i n k hk
    rw [downAux]
    dsimp only
    by_cases h1 : 2 * i + 1 < n
    · rw [if_pos h1]
      have hstep : ∀ j, j < n →
          lhGet (downAux gas (lhSwap h i j) j n) k = lhGet h k := by
        intro j hjn
        rw [ih _ _ _ _ hk, lhGet_lhSwap_other (by omega) (by omega)]
      split
      · split
        · rename_i hcond _
          simp only [Bool.and_eq_true, decide_eq_true_eq] at hcond
          exact hstep _ (by omega)
        · rfl
      · split
        · exact hstep _ h1
        · rfl
    · rw [if_neg h1]

theorem IsHeapPre.root_le {h : LineHeap} {n : Nat} (hh : IsHeapPre h n) :
    ∀ j, j < n → lhTS h 0 ≤ lhTS h j := by
  intro j
  induction j using Nat.strong_induction_on with
  | _ j ih =>
    intro hj
    rcases Nat.eq_zero_or_pos j with rfl | hpos
    · exact le_refl _
    · exact le_trans (ih ((j - 1) / 2) (by omega) (by omega)) (hh j hpos hj)

theorem lhGet_append_left {l m : List heapItem} {k : Nat} (hk : k < l.length) :
    lhGet (l ++ m) k = lhGet l k := by
  rw [lhGet, lhGet, List.getD_eq_getElem?_getD, List.getD_eq_getElem?_getD,
    List.getElem?_append, if_pos hk]

theorem lhGet_take {l : List heapItem} {n k : Nat} (hk : k < n) :
    lhGet (List.take n l) k = lhGet l k := by
  rw [lhGet, lhGet, List.getD_eq_getElem?_getD, List.getD_eq_getElem?_getD,
    List.getElem?_take, if_pos hk]

theorem upAux_heap (gas : Nat) :
    ∀ (h : LineHeap) (j : Nat), j < gas →
      j < List.length (h : List heapItem) → AlmostUp h j →
      IsHeapPre (upAux gas h j) (List.length (h : List heapItem)) := by
  induction gas with
  | zero => intro h j hj; omega
  | succ gas ih =>
    intro h j hjg hjl hA
    rw [upAux]
    try dsimp only
    split
    · rename_i hcond
      simp only [Bool.or_eq_true, decide_eq_true_eq, Bool.not_eq_true',
        lhLess] at hcond
      intro k hk0 hkn
      by_cases hkj : k = j
      · subst hkj
        rcases hcond with hij | hless
        · omega
        · simp only [decide_eq_false_iff_not, not_lt] at hless
          exact hless
      · exact hA.1 k hk0 hkn hkj
    · rename_i hcond
      simp only [Bool.or_eq_true, decide_eq_true_eq, Bool.not_eq_true',
        Bool.not_eq_false, lhLess, not_or, decide_eq_true_eq] at hcond
      obtain ⟨hij, hlt⟩ := hcond
      have hj0 : 0 < j := by omega
      have hilt : (j - 1) / 2 < j := by omega
      have hil : (j - 1) / 2 < List.length (h : List heapItem) := by omega
      have hswlen : List.length (lhSwap h ((j - 1) / 2) j : List heapItem) =
          List.length (h : List heapItem) := length_lhSwap h _ j
      have hfst : lhTS (lhSwap h ((j - 1) / 2) j) ((j - 1) / 2) = lhTS h j := by
        rw [lhTS, lhTS, lhGet_lhSwap_fst hil hjl]
      have hsnd : lhTS (lhSwap h ((j - 1) / 2) j) j = lhTS h ((j - 1) / 2) := by
        rw [lhTS, lhTS, lhGet_lhSwap_snd hjl]
      have hoth : ∀ k, k ≠ (j - 1) / 2 → k ≠ j →
          lhTS (lhSwap h ((j - 1) / 2) j) k = lhTS h k := by
        intro k h1 h2
        rw [lhTS, lhTS, lhGet_lhSwap_other (fun hc => h1 hc.symm) (fun hc => h2 hc.symm)]
      have hA' : AlmostUp (lhSwap h ((j - 1) / 2) j) ((j - 1) / 2) := by
        constructor
        · intro k hk0 hkn hki
          rw [hswlen] at hkn
          by_cases hkj : k = j
          · rw [hkj, hfst, hsnd]
            exact le_of_lt hlt
          · rw [hoth k hki hkj]
            by_cases hpi : (k - 1) / 2 = (j - 1) / 2
            · rw [hpi, hfst]
              exact le_trans (le_of_lt hlt) (hpi ▸ hA.1 k hk0 hkn hkj)
            · by_cases hpj : (k - 1) / 2 = j
              · rw [hpj, hsnd]
                exact hA.2 hj0 k hkn hpj
              · rw [hoth _ hpi hpj]
                exact hA.1 k hk0 hkn hkj
        · intro hi0 k hkn hpk
          rw [hswlen] at hkn
          have hgp1 : ((j - 1) / 2 - 1) / 2 ≠ (j - 1) / 2 := by omega
          have hgp2 : ((j - 1) / 2 - 1) / 2 ≠ j := by omega
          rw [hoth _ hgp1 hgp2]
          by_cases hkj : k = j
          · rw [hkj, hsnd]
            exact hA.1 ((j - 1) / 2) hi0 hil hij
          · have hki : k ≠ (j - 1) / 2 := by omega
            rw [hoth k hki hkj]
            refine le_trans (hA.1 ((j - 1) / 2) hi0 hil hij) ?_
            have hk0 : 0 < k := by omega
            exact hpk ▸ hA.1 k hk0 hkn hkj
      have := ih (lhSwap h ((j - 1) / 2) j) ((j - 1) / 2) (by omega)
        (by rw [hswlen]; exact hil) hA'
      rw [hswlen] at this
      exact this

theorem heapPush_heap {h : LineHeap} (x : heapItem) (hh : IsHeap h) :
    IsHeap (heapPush h x) := by
  rw [IsHeap, length_heapPush, heapPush, heapUp]
  have hlen : List.length ((h : List heapItem) ++ [x]) =
      List.length (h : List heapItem) + 1 := by simp
  have hA : AlmostUp ((h : List heapItem) ++ [x]) (lhLen h) := by
    constructor
    · intro k hk0 hkn hkj
      rw [hlen] at hkn
      have hkl : k < List.length (h : List heapItem) := by
        rcases Nat.lt_succ_iff_lt_or_eq.mp hkn with h1 | h1
        · exact h1
        · exact absurd h1 (by simpa [lhLen] using hkj)
      rw [lhTS, lhTS, lhGet_append_left hkl, lhGet_append_left (by omega)]
      exact hh k hk0 hkl
    · intro hj0 k hkn hpk
      rw [hlen] at hkn
      rw [lhLen] at hpk hj0
      omega
  have := upAux_heap (lhLen h + 1) ((h : List heapItem) ++ [x]) (lhLen h)
    (by omega) (by rw [hlen, lhLen]; omega) hA
  rw [hlen] at this
  simpa [lhLen] using this

theorem downAux_heapPre (gas : Nat) :
    ∀ (h : LineHeap) (i n : Nat), n ≤ i + gas →
      n ≤ List.length (h : List heapItem) → AlmostDown h i n →
      IsHeapPre (downAux gas h i n) n := by
  induction gas with
  | zero =>
    intro h i n hgas _ hA
    intro k hk0 hkn
    exact hA.1 k hk0 hkn (by omega)
  | succ gas ih =>
    intro h i n hgas hlen hA
    rw [downAux]
    dsimp only
    by_cases h1 : 2 * i + 1 < n
    · rw [if_pos h1]
      set j := if (decide (2 * i + 1 + 1 < n)) && lhLess h (2 * i + 1 + 1) (2 * i + 1)
          then 2 * i + 1 + 1 else 2 * i + 1 with hjdef
      have hjn : j < n := by
        rw [hjdef]; split
        · rename_i hc
          simp only [Bool.and_eq_true, decide_eq_true_eq] at hc
          omega
        · exact h1
      have hij : i < j := by
        rw [hjdef]; split <;> omega
      have hpj : (j - 1) / 2 = i := by
        rw [hjdef]; split <;> omega
      have hjmin : ∀ k, 0 < k → k < n → (k - 1) / 2 = i → lhTS h j ≤ lhTS h k := by
        intro k hk0 hkn hpk
        have hk2 : k = 2 * i + 1 ∨ k = 2 * i + 2 := by omega
        rw [hjdef]
        split
        · rename_i hc
          simp only [Bool.and_eq_true, decide_eq_true_eq, lhLess] at hc
          rcases hk2 with rfl | rfl
          · exact le_of_lt hc.2
          · exact le_refl _
        · rename_i hc
          simp only [Bool.and_eq_true, decide_eq_true_eq, lhLess, not_and,
            Bool.not_eq_true] at hc
          rcases hk2 with rfl | rfl
          · exact le_refl _
          · have := hc (by omega)
            simp only [decide_eq_false_iff_not, not_lt] at this
            exact this
      by_cases hless : lhLess h j i = true
      · rw [if_pos hless]
        simp only [lhLess, decide_eq_true_eq] at hless
        have hil : i < List.length (h : List heapItem) := by omega
        have hjl : j < List.length (h : List heapItem) := by omega
        have hswlen : List.length (lhSwap h i j : List heapItem) =
            List.length (h : List heapItem) := length_lhSwap h i j
        have hfst : lhTS (lhSwap h i j) i = lhTS h j := by
          rw [lhTS, lhTS, lhGet_lhSwap_fst hil hjl]
        have hsnd : lhTS (lhSwap h i j) j = lhTS h i := by
          rw [lhTS, lhTS, lhGet_lhSwap_snd hjl]
        have hoth : ∀ k, k ≠ i → k ≠ j → lhTS (lhSwap h i j) k = lhTS h k := by
          intro k hk1 hk2
          rw [lhTS, lhTS, lhGet_lhSwap_other (fun hc => hk1 hc.symm) (fun hc => hk2 hc.symm)]
        have hA' : AlmostDown (lhSwap h i j) j n := by
          constructor
          · intro k hk0 hkn hpk
            by_cases hkj : k = j
            · rw [hkj, hpj, hfst, hsnd]
              exact le_of_lt hless
            · by_cases hki : k = i
              · rw [hki]
                have hi0 : 0 < i := by omega
                have hgpi : (i - 1) / 2 ≠ i := by omega
                have hgpj : (i - 1) / 2 ≠ j := by omega
                rw [hoth _ hgpi hgpj, hfst]
                exact hA.2 hi0 j hjn hpj
              · rw [hoth k hki hkj]
                by_cases hpi : (k - 1) / 2 = i
                · rw [hpi, hfst]
                  exact hjmin k hk0 hkn hpi
                · have hppi : (k - 1) / 2 ≠ j := hpk
                  rw [hoth _ hpi hppi]
                  exact hA.1 k hk0 hkn hpi
          · intro _ k hkn hpk
            have hki : k ≠ i := by omega
            have hkj : k ≠ j := by omega
            rw [hpj, hfst, hoth k hki hkj]
            exact hpk ▸ hA.1 k (by omega) hkn (by omega)
        have := ih (lhSwap h i j) j n (by omega) (by rw [hswlen]; exact hlen) hA'
        exact this
      · rw [if_neg hless]
        simp only [lhLess, decide_eq_true_eq, not_lt] at hless
        intro k hk0 hkn
        by_cases hpk : (k - 1) / 2 = i
        · rw [hpk]
          exact le_trans hless (hjmin k hk0 hkn hpk)
        · exact hA.1 k hk0 hkn hpk
    · rw [if_neg h1]
      intro k hk0 hkn
      by_cases hpk : (k - 1) / 2 = i
      · omega
      · exact hA.1 k hk0 hkn hpk

theorem IsHeap.root_min {h : LineHeap} (hh : IsHeap h) {x : heapItem}
    (hx : x ∈ (h : List heapItem)) : (lhGet h 0).line.ts ≤ x.line.ts := by
  rcases List.mem_iff_getElem.mp hx with ⟨i, hi, rfl⟩
  have := IsHeapPre.root_le hh i hi
  rw [lhTS, lhTS, lhGet_eq_getElem hi] at this
  exact this

theorem heapPop_fst {h : LineHeap} (hne : (h : List heapItem) ≠ []) :
    (heapPop h).1 = lhGet h 0 := by
  have hlen : 0 < List.length (h : List heapItem) := List.length_pos.mpr hne
  rw [heapPop]
  dsimp only
  rw [heapDown, lhGet_downAux_of_ge _ _ _ _ _ (le_refl _),
    lhGet_lhSwap_snd (by rw [lhLen]; omega)]

theorem heapPop_perm {h : LineHeap} (hne : (h : List heapItem) ≠ []) :
    ((heapPop h).1 :: ((heapPop h).2 : List heapItem)).Perm (h : List heapItem) := by
  have hlen : 0 < List.length (h : List heapItem) := List.length_pos.mpr hne
  rw [heapPop]
  dsimp only
  rw [heapDown]
  set n := lhLen h - 1 with hn
  have hnval : n = List.length (h : List heapItem) - 1 := by rw [hn]; rfl
  set h2 := downAux n (lhSwap h 0 n) 0 n with hh2
  have hlen2 : List.length (h2 : List heapItem) = List.length (h : List heapItem) := by
    rw [hh2, length_downAux, length_lhSwap]
  have hperm : (h2 : List heapItem).Perm (h : List heapItem) := by
    rw [hh2]
    exact (perm_downAux _ _ _ _ (by rw [length_lhSwap]; omega)).trans
      (lhSwap_perm (by omega) (by omega))
  have hnlt : n < List.length (h2 : List heapItem) := by omega
  have hdec : (h2 : List heapItem) =
      List.take n h2 ++ [lhGet h2 n] := by
    conv_lhs => rw [← List.take_append_drop n (h2 : List heapItem)]
    congr 1
    rw [List.drop_eq_getElem_cons hnlt, lhGet_eq_getElem hnlt]
    have : List.drop (n + 1) (h2 : List heapItem) = [] := by
      apply List.drop_eq_nil_of_le
      omega
    rw [this]
  have hstep : (lhGet h2 n :: List.take n (h2 : List heapItem)).Perm
      (h2 : List heapItem) := by
    conv_rhs => rw [hdec]
    exact (List.perm_append_singleton _ _).symm
  exact hstep.trans hperm

theorem heapPop_heap {h : LineHeap} (hne : (h : List heapItem) ≠ [])
    (hh : IsHeap h) : IsHeap ((heapPop h).2) := by
  have hlen : 0 < List.length (h : List heapItem) := List.length_pos.mpr hne
  rw [heapPop]
  dsimp only
  rw [heapDown]
  set n := lhLen h - 1 with hn
  have hnlen : n ≤ List.length (h : List heapItem) := by rw [hn, lhLen]; omega
  have hA : AlmostDown (lhSwap h 0 n) 0 n := by
    constructor
    · intro k hk0 hkn hpk
      have hkn' : k < List.length (h : List heapItem) := by rw [hn, lhLen] at hkn; omega
      have hpne0 : (0 : Nat) ≠ (k - 1) / 2 := fun hc => hpk hc.symm
      have hpnen : n ≠ (k - 1) / 2 := by omega
      have hkne0 : (0 : Nat) ≠ k := by omega
      have hknen : n ≠ k := by omega
      rw [lhTS, lhTS, lhGet_lhSwap_other hpne0 hpnen, lhGet_lhSwap_other hkne0 hknen]
      exact hh k hk0 hkn'
    · intro hc
      omega
  have hpre := downAux_heapPre n (lhSwap h 0 n) 0 n (by omega)
    (by rw [length_lhSwap]; exact hnlen) hA
  have hlen2 : List.length
      (downAux n (lhSwap h 0 n) 0 n : List heapItem) =
        List.length (h : List heapItem) := by
    rw [length_downAux, length_lhSwap]
  rw [IsHeap, List.length_take, hlen2]
  have hmin : min n (List.length (h : List heapItem)) = n := by omega
  rw [hmin]
  intro k hk0 hkn
  rw [lhTS, lhTS, lhGet_take hkn, lhGet_take (by omega)]
  exact hpre k hk0 hkn

theorem mem_heapPop_snd {h : LineHeap} (hne : (h : List heapItem) ≠ [])
    {x : heapItem} (hx : x ∈ ((heapPop h).2 : List heapItem)) :
    x ∈ (h : List heapItem) :=
  (heapPop_perm hne).mem_iff.mp (List.mem_cons_of_mem _ hx)

theorem mem_heapPush {h : LineHeap} {x y : heapItem}
    (hy : y ∈ (heapPush h x : List heapItem)) :
    y = x ∨ y ∈ (h : List heapItem) := by
  have := (perm_heapPush h x).mem_iff.mp hy
  simpa using this

/-! Generic `getD` bookkeeping for the per-source record lists. -/

theorem listGetD_set_ne {α : Type} {l : List α} {i k : Nat} (v d : α)
    (hik : i ≠ k) : (l.set i v).getD k d = l.getD k d := by
  rw [List.getD_eq_getElem?_getD, List.getD_eq_getElem?_getD, List.getElem?_set_ne hik]

theorem listGetD_set_self {α : Type} {l : List α} {i : Nat} (v d : α)
    (hi : i < l.length) : (l.set i v).getD i d = v := by
  rw [List.getD_eq_getElem?_getD, List.getElem?_set_self hi, Option.getD_some]

theorem listGetD_mem {α : Type} {l : List α} {i : Nat} {d : α}
    (hi : i < l.length) : l.getD i d ∈ l := by
  rw [List.getD_eq_getElem?_getD, List.getElem?_eq_getElem hi, Option.getD_some]
  exact List.getElem_mem hi

theorem listGetD_of_ge {α : Type} {l : List α} {i : Nat} (d : α)
    (hi : l.length ≤ i) : l.getD i d = d := by
  rw [List.getD_eq_getElem?_getD, List.getElem?_eq_none hi]
  rfl

/-- Each emitted record is the minimum of the heap, every later record is
bounded below by some current heap item, and the whole emission is
non-decreasing (run invariant induction). -/
theorem mergedRunAux_sorted (fuel : Nat) :
    ∀ st, MergedInv st →
      (mergedRunAux fuel st).Pairwise (fun a b => a.ts ≤ b.ts) ∧
      (∀ r ∈ mergedRunAux fuel st, ∃ item ∈ (st.heap : List heapItem),
        item.line.ts ≤ r.ts) := by
  induction fuel with
  | zero => intro st _; exact ⟨List.Pairwise.nil, by simp [mergedRunAux]⟩
  | succ fuel ih =>
    intro st hinv
    obtain ⟨hheap, hsorted, hbound⟩ := hinv
    rw [mergedRunAux]
    by_cases hne : (st.heap : List heapItem) = []
    · rw [if_pos hne]
      exact ⟨List.Pairwise.nil, by simp⟩
    · rw [if_neg hne]
      dsimp only
      have hlen : 0 < List.length (st.heap : List heapItem) := List.length_pos.mpr hne
      have hfst : (heapPop st.heap).1 = lhGet st.heap 0 := heapPop_fst hne
      have hrootmem : (heapPop st.heap).1 ∈ (st.heap : List heapItem) := by
        rw [hfst]; exact lhGet_mem hlen
      have hmin : ∀ x ∈ (st.heap : List heapItem),
          (heapPop st.heap).1.line.ts ≤ x.line.ts := by
        intro x hx; rw [hfst]; exact hheap.root_min hx
      cases hgd : st.srcs.getD (heapPop st.heap).1.sourceIdx [] with
      | nil =>
        dsimp only
        have hnextmem : ∀ x ∈ ((heapPop st.heap).2 : List heapItem),
            x ∈ (st.heap : List heapItem) := fun x hx => mem_heapPop_snd hne hx
        have hinv1 : MergedInv { heap := (heapPop st.heap).2, srcs := st.srcs } :=
          ⟨heapPop_heap hne hheap, hsorted,
            fun item hitem r hr => hbound item (hnextmem item hitem) r hr⟩
        obtain ⟨ihp, ihb⟩ := ih _ hinv1
        constructor
        · rw [List.pairwise_cons]
          refine ⟨?_, ihp⟩
          intro r hr
          obtain ⟨item, hitem, hile⟩ := ihb r hr
          exact le_trans (hmin item (hnextmem item hitem)) hile
        · intro r hr
          rcases List.mem_cons.mp hr with rfl | hr
          · exact ⟨(heapPop st.heap).1, hrootmem, le_refl _⟩
          · obtain ⟨item, hitem, hile⟩ := ihb r hr
            exact ⟨item, hnextmem item hitem, hile⟩
      | cons nl tail =>
        dsimp only
        have hidxlt : (heapPop st.heap).1.sourceIdx < st.srcs.length := by
          by_contra hge
          rw [listGetD_of_ge _ (by omega)] at hgd
          exact List.noConfusion hgd
        have hsrcmem : (nl :: tail) ∈ st.srcs := by
          rw [← hgd]
          exact listGetD_mem hidxlt
        have hsrcsort : (nl :: tail).Pairwise (fun a b : ParsedLine => a.ts ≤ b.ts) :=
          hsorted _ hsrcmem
        have hnl_tail : ∀ r ∈ tail, nl.ts ≤ r.ts := (List.pairwise_cons.mp hsrcsort).1
        have hpopmem : ∀ x ∈ ((heapPop st.heap).2 : List heapItem),
            x ∈ (st.heap : List heapItem) := fun x hx => mem_heapPop_snd hne hx
        have hpushmem : ∀ x ∈
            ((heapPush (heapPop st.heap).2
              { line := nl, sourceIdx := (heapPop st.heap).1.sourceIdx }) : List heapItem),
            x = ({ line := nl, sourceIdx := (heapPop st.heap).1.sourceIdx } : heapItem) ∨
              x ∈ (st.heap : List heapItem) := by
          intro x hx
          rcases mem_heapPush hx with h1 | h1
          · exact Or.inl h1
          · exact Or.inr (hpopmem x h1)
        have hinv1 : MergedInv
            { heap := heapPush (heapPop st.heap).2
                { line := nl, sourceIdx := (heapPop st.heap).1.sourceIdx }
              srcs := st.srcs.set (heapPop st.heap).1.sourceIdx tail } := by
          refine ⟨heapPush_heap _ (heapPop_heap hne hheap), ?_, ?_⟩
          · intro src hsrc
            rcases List.mem_or_eq_of_mem_set hsrc with h1 | rfl
            · exact hsorted src h1
            · exact (List.pairwise_cons.mp hsrcsort).2
          · intro item hitem r hr
            rcases hpushmem item hitem with rfl | h1
            · rw [listGetD_set_self _ _ hidxlt] at hr
              exact hnl_tail r hr
            · by_cases hsame : item.sourceIdx = (heapPop st.heap).1.sourceIdx
              · rw [hsame, listGetD_set_self _ _ hidxlt] at hr
                refine hbound item h1 r ?_
                rw [hsame, hgd]
                exact List.mem_cons_of_mem _ hr
              · rw [listGetD_set_ne _ _ (fun hc => hsame hc.symm)] at hr
                exact hbound item h1 r hr
        have hnextbound : ∀ x ∈
            ((heapPush (heapPop st.heap).2
              { line := nl, sourceIdx := (heapPop st.heap).1.sourceIdx }) : List heapItem),
            (heapPop st.heap).1.line.ts ≤ x.line.ts := by
          intro x hx
          rcases hpushmem x hx with rfl | h1
          · exact hbound _ hrootmem nl (by rw [hgd]; exact List.mem_cons_self _ _)
          · exact hmin x h1
        obtain ⟨ihp, ihb⟩ := ih _ hinv1
        constructor
        · rw [List.pairwise_cons]
          refine ⟨?_, ihp⟩
          intro r hr
          obtain ⟨item, hitem, hile⟩ := ihb r hr
          exact le_trans (hnextbound item hitem) hile
        · intro r hr
          rcases List.mem_cons.mp hr with rfl | hr
          · exact ⟨(heapPop st.heap).1, hrootmem, le_refl _⟩
          · obtain ⟨item, hitem, hile⟩ := ihb r hr
            exact ⟨(heapPop st.heap).1, hrootmem,
              le_trans (hnextbound item hitem) hile⟩

theorem heapInit_nil : heapInit ([] : LineHeap) = ([] : LineHeap) := rfl

theorem foldl_heapPush_heap (items : List heapItem) :
    ∀ h0 : LineHeap, IsHeap h0 → IsHeap (items.foldl heapPush h0) := by
  induction items with
  | nil => intro h0 hh; exact hh
  | cons a rest ih =>
    intro h0 hh
    exact ih (heapPush h0 a) (heapPush_heap a hh)

theorem foldl_heapPush_perm (items : List heapItem) :
    ∀ h0 : LineHeap,
      ((items.foldl heapPush h0) : List heapItem).Perm ((h0 : List heapItem) ++ items) := by
  induction items with
  | nil => intro h0; simp
  | cons a rest ih =>
    intro h0
    refine (ih (heapPush h0 a)).trans ?_
    refine (((perm_heapPush h0 a).append_right rest).trans ?_)
    exact List.perm_middle.symm

theorem initItems_mem : ∀ (sources : List (List ParsedLine)) (k : Nat)
    (x : heapItem), x ∈ initItems k sources →
    ∃ i, i < sources.length ∧ x.sourceIdx = k + i ∧
      (sources.getD i []).head? = some x.line := by
  intro sources
  induction sources with
  | nil => intro k x hx; simp [initItems] at hx
  | cons src rest ih =>
    intro k x hx
    cases src with
    | nil =>
      rw [initItems] at hx
      obtain ⟨i, hil, hidx, hhead⟩ := ih (k + 1) x hx
      exact ⟨i + 1, by simpa using hil, by omega, by simpa using hhead⟩
    | cons line tl =>
      rw [initItems] at hx
      rcases List.mem_cons.mp hx with rfl | hx
      · exact ⟨0, by simp, by simp, rfl⟩
      · obtain ⟨i, hil, hidx, hhead⟩ := ih (k + 1) x hx
        exact ⟨i + 1, by simpa using hil, by omega, by simpa using hhead⟩

theorem mergedInit_inv (sources : List (List ParsedLine))
    (hs : ∀ src ∈ sources, src.Pairwise fun a b => a.ts ≤ b.ts) :
    MergedInv (mergedInit sources) := by
  have hempty : IsHeap ([] : LineHeap) := by
    intro j hj0 hjn
    simp at hjn
  refine ⟨?_, ?_, ?_⟩
  · rw [mergedInit]
    rw [heapInit_nil]
    exact foldl_heapPush_heap _ _ hempty
  · intro src hsrc
    rcases List.mem_map.mp hsrc with ⟨src0, hsrc0, rfl⟩
    exact (hs src0 hsrc0).tail
  · intro item hitem r hr
    have hmem : item ∈ initItems 0 sources := by
      have := (foldl_heapPush_perm _ _).mem_iff.mp hitem
      rw [heapInit_nil] at this
      simpa using this
    obtain ⟨i, hilen, hidx, hhead⟩ := initItems_mem sources 0 item hmem
    rw [Nat.zero_add] at hidx
    have hm : (sources.map List.tail).getD item.sourceIdx [] =
        (sources.getD i []).tail := by
      rw [hidx, List.getD_eq_getElem?_getD, List.getD_eq_getElem?_getD,
        List.getElem?_map]
      cases sources[i]? <;> rfl
    simp only [mergedInit] at hr
    rw [hm] at hr
    have hsrcmem : sources.getD i [] ∈ sources := listGetD_mem hilen
    have hsort := hs _ hsrcmem
    cases hsc : sources.getD i [] with
    | nil => rw [hsc] at hhead; exact absurd hhead (by simp)
    | cons hd tl =>
      rw [hsc] at hhead hsort
      rw [hsc] at hr
      simp only [List.head?_cons, Option.some.injEq] at hhead
      rw [← hhead]
      exact (List.pairwise_cons.mp hsort).1 r hr

/-- C3: a merged source over underlying sources that each yield records in
non-decreasing timestamp order emits every record with a timestamp ≥ that
of the previously emitted record. -/
theorem merged_source_monotone (sources : List (List ParsedLine))
    (hs : ∀ src ∈ sources, src.Pairwise fun a b => a.ts ≤ b.ts) :
    (mergedRun sources).Chain' (fun a b => a.ts ≤ b.ts) := by
  rw [mergedRun]
  exact ((mergedRunAux_sorted _ _ (mergedInit_inv sources hs)).1).chain'

/-- Witness for C3 on the concrete two-source merge. -/
theorem merged_source_monotone_witness :
    (mergedRun mergedW3).Chain' (fun a b => a.ts ≤ b.ts) :=
  merged_source_monotone mergedW3 (by decide)

/-- Counterexample for C2: after `a1` is emitted, the next-available records
are `a2` (source index 0) and `b1` (source index 1), both at time 5; the
claim demands `a2` first, but `lineHeap.Less` has no index tie-break and
the pop order of `container/heap` emits `b1` (the higher source index)
first. -/
theorem merged_tie_counterexample :
    mergedRun mergedW2 =
      [{ raw := "a1", ts := 1, source := "a.log", lineNum := 1 },
       { raw := "b1", ts := 5, source := "b.log", lineNum := 1 },
       { raw := "a2", ts := 5, source := "a.log", lineNum := 2 }] ∧
    mergedRun mergedW2 ≠
      [{ raw := "a1", ts := 1, source := "a.log", lineNum := 1 },
       { raw := "a2", ts := 5, source := "a.log", lineNum := 2 },
       { raw := "b1", ts := 5, source := "b.log", lineNum := 1 }] := by
  constructor
  · decide
  · decide

theorem length_heapPop_snd {h : LineHeap} (hne : (h : List heapItem) ≠ []) :
    List.length ((heapPop h).2 : List heapItem) + 1 =
      List.length (h : List heapItem) := by
  have := (heapPop_perm hne).length_eq
  simpa using this

theorem initItems_head_mem : ∀ (sources : List (List ParsedLine)) (k i : Nat)
    (hd : ParsedLine) (tl : List ParsedLine),
    sources.getD i [] = hd :: tl →
    ({ line := hd, sourceIdx := k + i } : heapItem) ∈ initItems k sources := by
  intro sources
  induction sources with
  | nil =>
    intro k i hd tl hgd
    rw [List.getD] at hgd
    simp at hgd
  | cons src rest ih =>
    intro k i hd tl hgd
    cases i with
    | zero =>
      have hsrc : src = hd :: tl := hgd
      subst hsrc
      rw [initItems]
      exact List.mem_cons_self _ _
    | succ i =>
      have hgd' : rest.getD i [] = hd :: tl := hgd
      have hmem := ih (k + 1) i hd tl hgd'
      have hidx : k + (i + 1) = k + 1 + i := by omega
      cases src with
      | nil =>
        rw [initItems]
        simpa [hidx] using hmem
      | cons a b =>
        rw [initItems]
        exact List.mem_cons_of_mem _ (by simpa [hidx] using hmem)

theorem mergedInit_covered (sources : List (List ParsedLine)) :
    SourcesCovered (mergedInit sources) := by
  intro i hi hne
  simp only [mergedInit, List.length_map] at hi hne ⊢
  have hm : (sources.map List.tail).getD i [] = (sources.getD i []).tail := by
    rw [List.getD_eq_getElem?_getD, List.getD_eq_getElem?_getD, List.getElem?_map]
    cases sources[i]? <;> rfl
  rw [hm] at hne
  cases hsc : sources.getD i [] with
  | nil => rw [hsc] at hne; exact absurd rfl hne
  | cons hd tl =>
    refine ⟨{ line := hd, sourceIdx := i }, ?_, rfl⟩
    have hmem : ({ line := hd, sourceIdx := 0 + i } : heapItem) ∈ initItems 0 sources :=
      initItems_head_mem sources 0 i hd tl hsc
    rw [Nat.zero_add] at hmem
    refine (foldl_heapPush_perm _ _).mem_iff.mpr ?_
    rw [heapInit_nil]
    simpa using hmem

/-- Run the merge to completion: the emitted stream is a permutation of the
heap contents plus all remaining source records. -/
theorem mergedRunAux_perm (fuel : Nat) :
    ∀ st, SourcesCovered st → totalCount st ≤ fuel →
      (mergedRunAux fuel st).Perm
        (((st.heap : List heapItem).map (fun it => it.line)) ++ st.srcs.flatten) := by
  induction fuel with
  | zero =>
    intro st _ htot
    rw [totalCount] at htot
    have hh : (st.heap : List heapItem) = [] := List.length_eq_zero.mp (by omega)
    have hj : st.srcs.flatten = [] := by
      apply List.length_eq_zero.mp
      rw [List.length_flatten]
      omega
    rw [mergedRunAux, hh, hj]
    simp
  | succ fuel ih =>
    intro st hcov htot
    rw [mergedRunAux]
    by_cases hne : (st.heap : List heapItem) = []
    · rw [if_pos hne]
      have hj : st.srcs.flatten = [] := by
        apply List.flatten_eq_nil_iff.mpr
        intro src hsrc
        by_contra hsne
        obtain ⟨i, hi, hieq⟩ := List.mem_iff_getElem.mp hsrc
        have hgd : st.srcs.getD i [] = src := by
          rw [List.getD_eq_getElem?_getD, List.getElem?_eq_getElem hi,
            Option.getD_some, hieq]
        obtain ⟨item, hitem, _⟩ := hcov i hi (by rw [hgd]; exact hsne)
        rw [hne] at hitem
        exact List.not_mem_nil item hitem
      rw [hne, hj]
      simp
    · rw [if_neg hne]
      dsimp only
      have hlen : 0 < List.length (st.heap : List heapItem) := List.length_pos.mpr hne
      have hpp := heapPop_perm hne
      have hppl : ((heapPop st.heap).2 : List heapItem).length + 1 =
          List.length (st.heap : List heapItem) := length_heapPop_snd hne
      have hmapp : ((heapPop st.heap).1.line ::
          ((heapPop st.heap).2 : List heapItem).map (fun it => it.line)).Perm
            ((st.heap : List heapItem).map (fun it => it.line)) := by
        simpa using hpp.map (fun it => it.line)
      have hsurvive : ∀ item ∈ (st.heap : List heapItem),
          item.sourceIdx ≠ (heapPop st.heap).1.sourceIdx →
          item ∈ ((heapPop st.heap).2 : List heapItem) := by
        intro item hitem hidx
        rcases List.mem_cons.mp (hpp.mem_iff.mpr hitem) with rfl | hmem
        · exact absurd rfl hidx
        · exact hmem
      cases hgd : st.srcs.getD (heapPop st.heap).1.sourceIdx [] with
      | nil =>
        dsimp only
        have hcov1 : SourcesCovered { heap := (heapPop st.heap).2, srcs := st.srcs } := by
          intro i hi hne'
          obtain ⟨item, hitem, hieq⟩ := hcov i hi hne'
          refine ⟨item, ?_, hieq⟩
          refine hsurvive item hitem ?_
          intro hc
          dsimp only at hne'
          have hiidx : i = (heapPop st.heap).1.sourceIdx := by rw [← hieq, hc]
          rw [hiidx] at hne'
          exact hne' hgd
        have htot1 : totalCount { heap := (heapPop st.heap).2, srcs := st.srcs } ≤ fuel := by
          rw [totalCount] at htot ⊢
          dsimp only at *
          omega
        have ihp := ih _ hcov1 htot1
        refine (List.Perm.cons _ ihp).trans ?_
        exact hmapp.append_right _
      | cons nl tail =>
        dsimp only
        have hidxlt : (heapPop st.heap).1.sourceIdx < st.srcs.length := by
          by_contra hge
          rw [listGetD_of_ge _ (by omega)] at hgd
          exact List.noConfusion hgd
        have hgde : st.srcs[(heapPop st.heap).1.sourceIdx] = nl :: tail := by
          have := hgd
          rw [List.getD_eq_getElem?_getD, List.getElem?_eq_getElem hidxlt,
            Option.getD_some] at this
          exact this
        have hdecomp : st.srcs = st.srcs.take (heapPop st.heap).1.sourceIdx ++
            (nl :: tail) :: st.srcs.drop ((heapPop st.heap).1.sourceIdx + 1) := by
          conv_lhs => rw [← List.take_append_drop (heapPop st.heap).1.sourceIdx st.srcs]
          congr 1
          rw [List.drop_eq_getElem_cons hidxlt, hgde]
        have hset : st.srcs.set (heapPop st.heap).1.sourceIdx tail =
            st.srcs.take (heapPop st.heap).1.sourceIdx ++
              tail :: st.srcs.drop ((heapPop st.heap).1.sourceIdx + 1) :=
          List.set_eq_take_cons_drop tail hidxlt
        have hcov1 : SourcesCovered
            { heap := heapPush (heapPop st.heap).2
                { line := nl, sourceIdx := (heapPop st.heap).1.sourceIdx }
              srcs := st.srcs.set (heapPop st.heap).1.sourceIdx tail } := by
          intro i hi hne'
          dsimp only at hi hne' ⊢
          by_cases hsame : i = (heapPop st.heap).1.sourceIdx
          · refine ⟨{ line := nl, sourceIdx := (heapPop st.heap).1.sourceIdx },
              ?_, hsame.symm⟩
            exact (perm_heapPush _ _).mem_iff.mpr (List.mem_cons_self _ _)
          · rw [List.length_set] at hi
            rw [listGetD_set_ne _ _ (fun hc => hsame hc.symm)] at hne'
            obtain ⟨item, hitem, hieq⟩ := hcov i hi hne'
            refine ⟨item, ?_, hieq⟩
            refine (perm_heapPush _ _).mem_iff.mpr (List.mem_cons_of_mem _ ?_)
            exact hsurvive item hitem (by rw [hieq]; exact hsame)
        have htot1 : totalCount
            { heap := heapPush (heapPop st.heap).2
                { line := nl, sourceIdx := (heapPop st.heap).1.sourceIdx }
              srcs := st.srcs.set (heapPop st.heap).1.sourceIdx tail } ≤ fuel := by
          rw [totalCount] at htot ⊢
          dsimp only at *
          rw [length_heapPush] at *
          have hsum : ((st.srcs.set (heapPop st.heap).1.sourceIdx tail).map
              List.length).sum + (nl :: tail).length =
                (st.srcs.map List.length).sum + tail.length := by
            conv_rhs => rw [hdecomp]
            rw [hset]
            simp [List.sum_append]
            omega
          simp only [List.length_cons] at hsum
          omega
        have ihp := ih _ hcov1 htot1
        refine (List.Perm.cons _ ihp).trans ?_
        have hpushmap : (((heapPush (heapPop st.heap).2
            { line := nl, sourceIdx := (heapPop st.heap).1.sourceIdx }) :
              List heapItem).map (fun it => it.line)).Perm
            (nl :: ((heapPop st.heap).2 : List heapItem).map (fun it => it.line)) := by
          simpa using (perm_heapPush (heapPop st.heap).2
            { line := nl, sourceIdx := (heapPop st.heap).1.sourceIdx }).map
              (fun it => it.line)
        refine (List.Perm.cons _ (hpushmap.append_right _)).trans ?_
        have hflat : (nl :: (st.srcs.set (heapPop st.heap).1.sourceIdx tail).flatten).Perm
            st.srcs.flatten := by
          rw [hset]
          conv_rhs => rw [hdecomp]
          rw [List.flatten_append, List.flatten_cons, List.flatten_append,
            List.flatten_cons]
          refine (List.perm_middle.symm).trans ?_
          rfl
        refine List.Perm.trans ?_ (hmapp.append_right _)
        rw [List.cons_append, List.cons_append]
        refine List.Perm.cons _ ?_
        refine List.perm_middle.symm.trans ?_
        exact List.Perm.append_left _ hflat

/-- C2 (amended): the order the merged source emits is a total,
deterministic function of the inputs — it emits exactly the input records,
each once (a permutation of the concatenated sources) — but a timestamp tie
between next-available records is resolved by the heap's pop order, not by
the lower source index. -/
theorem merged_emits_inputs_once (sources : List (List ParsedLine)) :
    (mergedRun sources).Perm sources.flatten := by
  rw [mergedRun]
  refine (mergedRunAux_perm _ _ (mergedInit_covered sources) (le_refl _)).trans ?_
  have hheads : (((mergedInit sources).heap : List heapItem).map
      (fun it => it.line)).Perm ((initItems 0 sources).map (fun it => it.line)) := by
    refine List.Perm.map _ ?_
    rw [mergedInit]
    dsimp only
    refine (foldl_heapPush_perm _ _).trans ?_
    rw [heapInit_nil]
    simp
  refine (hheads.append_right _).trans ?_
  have hjoin : ∀ (srcs : List (List ParsedLine)) (k : Nat),
      (((initItems k srcs).map (fun it => it.line)) ++
        (srcs.map List.tail).flatten).Perm srcs.flatten := by
    intro srcs
    induction srcs with
    | nil => intro k; simp [initItems]
    | cons src rest ihj =>
      intro k
      cases src with
      | nil =>
        rw [initItems]
        simpa using ihj (k + 1)
      | cons hd tl =>
        rw [initItems]
        simp only [List.map_cons, List.flatten_cons, List.cons_append]
        refine List.Perm.cons hd ?_
        rw [← List.append_assoc]
        refine ((List.perm_append_comm).append_right _).trans ?_
        rw [List.append_assoc]
        exact List.Perm.append_left tl (ihj (k + 1))
  exact hjoin sources 0

/-- Witness for C1: on the concrete engine `condW1`, the in-window pending
trigger with the matching id is removed by the expected event. -/
theorem conditional_expected_removal_witness :
    (condW1.process condWLine).triggers = [] := by
  rw [(conditional_expected_removal condW1 condWLine ["ALERT", "a"]
    (by decide) (by decide) (by simp [condW1])).1 (by decide)]
  decide

/-- Witness for C10: a record matching both patterns, processed alone on the
concrete engine `condW2`, leaves no pending triggers and no issues. -/
theorem conditional_self_satisfying_witness :
    (condW2.process condWLine2).triggers = [] ∧
    (condW2.process condWLine2).finalizeIssues = [] :=
  (conditional_self_satisfying condW2 condWLine2 ["BOTH"] ["BOTH"]
    (by decide) (by decide) (by decide) (by decide)).2.2 rfl

/-- Witness for C4: the end event at time 5 (within the 10-unit timeout)
deletes the open entry of `seqW`. -/
theorem sequence_end_within_timeout_witness :
    alistLookup "a" (seqW.process condWLine).openSequences = none :=
  (sequence_end_within_timeout seqW condWLine ["ALERT", "a"] "a"
    { correlationID := "a", startTime := 0, source := "s.log", lineNum := 1 }
    (by decide) (by decide) (by decide) (by decide) (by decide)
    (by decide)).1.mpr (by decide)

end Negalog

